import Mathlib

/-!
Verification of the secure file shredder (`src/shredder/main.go`).

The Go source performs floating-point arithmetic in two places:
the chunk count `int64(math.Ceil(float64(fileSize) / float64(chunkSize)))`
and the progress percentage `int(float64(currentStep) / float64(totalSteps) * 100)`.
Both are embedded exactly: `rnd` below is IEEE-754 binary64 rounding
(round to nearest, ties to even) of an exact rational, which is the exact
semantics of the Go `float64` conversions and of each correctly rounded
arithmetic operation in the range exercised here (all values lie far inside
the normal range of binary64, so neither overflow nor subnormals can occur).
-/

namespace Shredder

/-- Nearest integer to a rational, ties going to the even integer.
This is the rounding applied to an (exactly scaled) significand by IEEE-754
round-to-nearest-even. -/
def roundEvenInt (q : ℚ) : ℤ :=
  if q - ⌊q⌋ < 1/2 then ⌊q⌋
  else if 1/2 < q - ⌊q⌋ then ⌊q⌋ + 1
  else if ⌊q⌋ % 2 = 0 then ⌊q⌋ else ⌊q⌋ + 1

/-- IEEE-754 binary64 rounding (round to nearest, ties to even) of an exact
rational value, expressed as an exact rational.  Nonpositive inputs are sent
to zero (only `0` itself ever occurs in this development).  The model has an
unbounded exponent range, which agrees with binary64 on the values occurring
here (all within `[2^-70, 2^60]` or zero). -/
def rnd (q : ℚ) : ℚ :=
  if 0 < q then
    (roundEvenInt (q * 2 ^ ((52 : ℤ) - Int.log 2 q)) : ℚ) * 2 ^ (Int.log 2 q - (52 : ℤ))
  else 0

/-- Go conversion of a `float64` to an integer type truncates toward zero. -/
def f64toInt (q : ℚ) : ℤ := if 0 ≤ q then ⌊q⌋ else -⌊-q⌋

/-- Fixed chunk size, from `main.go` line 41: `chunkSize := int64(64 * 1024)`. -/
def chunkSizeGo : ℕ := 64 * 1024

/-- Chunk count, from `main.go` lines 44-47:
`numChunks := int64(1); if fileSize > 0 { numChunks = int64(math.Ceil(float64(fileSize) / float64(chunkSize))) }`.
The division is one correctly rounded binary64 operation on the two converted
operands; `math.Ceil` of a binary64 value and the subsequent `int64`
conversion are exact in the attainable range, so they are embedded as the
exact integer ceiling. -/
def numChunksGo (fileSize : ℕ) : ℕ :=
  if 0 < fileSize then (⌈rnd (rnd (fileSize : ℚ) / rnd (chunkSizeGo : ℚ))⌉).toNat else 1

/-- Per-chunk buffer length, from `main.go` lines 59-65 (and the identical
lines 96-102 of the zero pass):
`bufferSize := chunkSize; if j == numChunks-1 && fileSize%chunkSize != 0 { bufferSize = fileSize % chunkSize }; if bufferSize == 0 { bufferSize = chunkSize }`. -/
def bufferSize (fileSize num j : ℕ) : ℕ :=
  let b := if j = num - 1 ∧ fileSize % chunkSizeGo ≠ 0 then fileSize % chunkSizeGo else chunkSizeGo
  if b = 0 then chunkSizeGo else b

/-- Chunk count as the specification words it: `max(1, ceil(L / C))`, in exact
integer arithmetic.  Used to compare the code's float64 computation against
the spec's formula. -/
def numChunksSpec (fileSize : ℕ) : ℕ :=
  max 1 ((fileSize + chunkSizeGo - 1) / chunkSizeGo)

/-- Window length exactly as claim C2 words it: length `C` except when
`j = numChunks - 1` and `L mod C ≠ 0`, in which case `L mod C`; a computed
length of `0` is corrected to `C`. -/
def windowLenSpec (fileSize num j : ℕ) : ℕ :=
  let r := if j = num - 1 ∧ fileSize % chunkSizeGo ≠ 0 then fileSize % chunkSizeGo else chunkSizeGo
  if r = 0 then chunkSizeGo else r

/-- The progress percentage computed on `main.go` lines 84 and 115:
`int(float64(currentStep) / float64(totalSteps) * 100)`, with every `float64`
conversion and arithmetic operation correctly rounded in binary64. -/
def pct (k t : ℕ) : ℤ :=
  f64toInt (rnd (rnd (rnd (k : ℚ) / rnd (t : ℚ)) * 100))

/-- Payload kind of an overwrite pass. -/
inductive Payload
  | random
  | zero
  deriving DecidableEq

/-- Observable effect of a run of `SecureShredFile` (and of the `shred`
wrapper): seeks, chunk writes, durable flushes (`file.Sync`), progress
callbacks, closing, truncation, rename, removal. -/
inductive Ev
  | seek (pos : ℕ)
  | write (off len : ℕ) (p : Payload)
  | sync
  | prog (v : ℤ)
  | closeFile
  | truncateFile
  | renameFile (src dst : String)
  | removeFile (path : String)
  deriving DecidableEq

/-- Events of one chunk iteration (`main.go` lines 58-86, resp. 95-117):
write the buffer for window `j`, `Sync`, then report
`int(float64(step)/float64(total)*100)` where `step = base + j + 1`.
Each pass writes its windows sequentially from offset 0, so window `j`
starts at offset `j * chunkSize`. -/
def chunkBlock (L num total base : ℕ) (p : Payload) (j : ℕ) : List Ev :=
  [Ev.write (j * chunkSizeGo) (bufferSize L num j) p, Ev.sync,
   Ev.prog (pct (base + j + 1) total)]

/-- Events of one pass: seek to offset 0, then every chunk window in order. -/
def passEvents (L num total base : ℕ) (p : Payload) : List Ev :=
  Ev.seek 0 :: (List.range num).flatMap (chunkBlock L num total base p)

/-- Events of the overwrite phase (`main.go` lines 52-117): `N` random passes
followed by the unconditional zero pass, with `currentStep` running on across
passes and `totalSteps = N * numChunks + numChunks`. -/
def overwriteEvents (L N : ℕ) : List Ev :=
  (List.range N).flatMap
    (fun i => passEvents L (numChunksGo L) (N * numChunksGo L + numChunksGo L)
      (i * numChunksGo L) Payload.random)
  ++ passEvents L (numChunksGo L) (N * numChunksGo L + numChunksGo L)
      (N * numChunksGo L) Payload.zero

/-- Events of the finalizer (`main.go` lines 119-152): close, truncate to 0,
rename to the obfuscated path, then the forced `progressCallback(100)`. -/
def finalizeEvents (orig dst : String) : List Ev :=
  [Ev.closeFile, Ev.truncateFile, Ev.renameFile orig dst, Ev.prog 100]

/-- Events of a fully successful `SecureShredFile` call on a file of length
`L` with `passes = N` and a non-nil progress callback. -/
def runTrace (L N : ℕ) (orig dst : String) : List Ev :=
  overwriteEvents L N ++ finalizeEvents orig dst

/-- Events of a fully successful `shred` wrapper call (`main.go` lines
157-192): the engine run followed by `os.Remove` of the renamed file, the
default deletion policy. -/
def shredTrace (L N : ℕ) (orig dst : String) : List Ev :=
  runTrace L N orig dst ++ [Ev.removeFile dst]

/-- Percentages passed to the progress callback, in order. -/
def progValues (es : List Ev) : List ℤ :=
  es.filterMap (fun e => match e with | Ev.prog v => some v | _ => none)

/-- Chunk writes `(offset, length, payload)`, in order. -/
def writesOf (es : List Ev) : List (ℕ × ℕ × Payload) :=
  es.filterMap (fun e => match e with | Ev.write o l p => some (o, l, p) | _ => none)

/-- Whether an event is a random-payload chunk write. -/
def isRandomWrite : Ev → Bool
  | Ev.write _ _ Payload.random => true
  | _ => false

/-- Zero-payload chunk writes `(offset, length, payload)`, in order. -/
def zeroWritesOf (es : List Ev) : List (ℕ × ℕ × Payload) :=
  (writesOf es).filter (fun w => decide (w.2.2 = Payload.zero))

/-- Every progress report in the list is immediately preceded by a durable
flush (`Sync`), itself immediately preceded by the corresponding chunk
write. -/
def FlushedBeforeProg (es : List Ev) : Prop :=
  ∀ i v, es[i]? = some (Ev.prog v) →
    2 ≤ i ∧ es[i-1]? = some Ev.sync ∧ ∃ o l p, es[i-2]? = some (Ev.write o l p)

/-- The URL-safe base64 alphabet (RFC 4648 §5), the character table of Go's
`base64.URLEncoding`. -/
def b64Alphabet : List Char :=
  ['A','B','C','D','E','F','G','H','I','J','K','L','M',
   'N','O','P','Q','R','S','T','U','V','W','X','Y','Z',
   'a','b','c','d','e','f','g','h','i','j','k','l','m',
   'n','o','p','q','r','s','t','u','v','w','x','y','z',
   '0','1','2','3','4','5','6','7','8','9','-','_']

/-- Character for a six-bit value. -/
def b64Char (n : ℕ) : Char := b64Alphabet.getD n 'A'

/-- Go's `base64.URLEncoding.WithPadding(base64.NoPadding).EncodeToString`,
translated from the block structure of `encoding/base64.(*Encoding).Encode`
(Go standard library): each full 3-byte group yields four 6-bit characters; a
trailing 1-byte group yields two characters and a trailing 2-byte group three
characters; with `NoPadding` no `=` is appended. -/
def goB64 : List ℕ → List Char
  | b0 :: b1 :: b2 :: rest =>
    let v := b0 * 65536 + b1 * 256 + b2
    b64Char (v / 262144) :: b64Char (v / 4096 % 64) :: b64Char (v / 64 % 64) ::
      b64Char (v % 64) :: goB64 rest
  | [b0, b1] =>
    let v := b0 * 256 + b1
    [b64Char (v / 1024), b64Char (v / 16 % 64), b64Char (v % 16 * 4)]
  | [b0] => [b64Char (b0 / 4), b64Char (b0 % 4 * 16)]
  | [] => []

/-- The eight bits of a byte, most significant first. -/
def bits8 (b : ℕ) : List ℕ :=
  [b / 128 % 2, b / 64 % 2, b / 32 % 2, b / 16 % 2, b / 8 % 2, b / 4 % 2, b / 2 % 2, b % 2]

/-- Groups of six consecutive bits (inputs are always zero-padded to a
multiple of six first, so the incomplete-group fallback is never reached). -/
def groups6 : List ℕ → List (List ℕ)
  | b1 :: b2 :: b3 :: b4 :: b5 :: b6 :: rest => [b1, b2, b3, b4, b5, b6] :: groups6 rest
  | _ => []

/-- Value of a six-bit group, most significant bit first. -/
def sixVal : List ℕ → ℕ
  | [b1, b2, b3, b4, b5, b6] => 32 * b1 + 16 * b2 + 8 * b3 + 4 * b4 + 2 * b5 + b6
  | _ => 0

/-- Zero-pad a bit string on the right to a multiple of six bits. -/
def padTo6 (l : List ℕ) : List ℕ :=
  l ++ List.replicate ((6 - l.length % 6) % 6) 0

/-- Base64url without padding as the specification describes it, defined from
first principles: the byte string's bits, zero-padded on the right into
six-bit groups, each group rendered through the URL-safe alphabet. -/
def specB64 (bytes : List ℕ) : List Char :=
  (groups6 (padTo6 (bytes.flatMap bits8))).map (fun g => b64Char (sixVal g))

/-- Model of Go's `strconv.FormatInt(ts, 10)` (standard library) for the
nonnegative timestamps occurring here, followed by the `[]byte` conversion:
the ASCII codes of the decimal digits, most significant first. -/
def decBytes (n : ℕ) : List ℕ :=
  if n = 0 then [48] else ((Nat.digits 10 n).reverse).map (fun d => d + 48)

/-- Directory of a path, modelled from Go's `filepath.Dir` (standard library)
for already-clean paths: everything before the final separator, `"/"` for
root-level files, `"."` for a path with no separator. -/
def goDir (p : String) : String :=
  let r := p.data.reverse.dropWhile (fun c => decide (c ≠ '/'))
  if r = [] then "."
  else if r = ['/'] then "/"
  else String.mk (r.drop 1).reverse

/-- Joining, modelled from Go's `filepath.Join` (standard library) for a
clean directory and a separator-free file name. -/
def goJoin (d n : String) : String :=
  if d = "." then n
  else if d.data.getLast? = some '/' then d ++ n
  else d ++ "/" ++ n

/-- The obfuscated file name built on `main.go` lines 129-140:
`fmt.Sprintf("%s_%s", timestampEncoded, randomSuffix)` where
`timestampEncoded` base64url-encodes (without padding) the decimal rendering
of the Unix timestamp `ts` and `randomSuffix` base64url-encodes (without
padding) the 32 random bytes `rb`. -/
def newFileNameGo (ts : ℕ) (rb : List ℕ) : String :=
  String.mk (goB64 (decBytes ts)) ++ "_" ++ String.mk (goB64 rb)

/-- The rename target: `filepath.Join(dir, newFileName)` with
`dir := filepath.Dir(filePath)`, `main.go` lines 129 and 141. -/
def newPathGo (filePath : String) (ts : ℕ) (rb : List ℕ) : String :=
  goJoin (goDir filePath) (newFileNameGo ts rb)

/-- The obfuscated identity as §3 and §4.3 of the specification word it: the
timestamp's decimal string base64url-encoded without padding, an underscore,
then the 32 random bytes base64url-encoded without padding, with the encoding
spelled out bit-by-bit. -/
def specObfuscatedName (ts : ℕ) (rb : List ℕ) : String :=
  String.mk (specB64 (decBytes ts)) ++ "_" ++ String.mk (specB64 rb)

/-- A file-system fragment: which paths exist, and the byte length of each. -/
abbrev FS : Type := String → Option ℕ

/-- The failure points of `SecureShredFile`, one per `fmt.Errorf` site
(`main.go` lines 24-145). -/
inductive GoErr
  | notExist (path : String)
  | statErr (path : String)
  | openErr (path : String)
  | seekErr (path : String)
  | randErr (path : String)
  | writeRandErr (path : String)
  | syncRandErr (path : String)
  | seekZeroErr (path : String)
  | writeZeroErr (path : String)
  | syncZeroErr (path : String)
  | closeErr (path : String)
  | truncateErr (path : String)
  | nameRandErr
  | renameErr (src dst : String)
  deriving DecidableEq

/-- The error message of each failure, from the `fmt.Errorf` format strings;
`w` stands for the wrapped underlying error's text (the `%w` verb). -/
def errMsg (e : GoErr) (w : String) : String :=
  match e with
  | GoErr.notExist p => "file does not exist: " ++ p
  | GoErr.statErr p => "error getting file info for " ++ p ++ ": " ++ w
  | GoErr.openErr p => "no write permission or error opening file " ++ p ++ ": " ++ w
  | GoErr.seekErr p => "error seeking file " ++ p ++ ": " ++ w
  | GoErr.randErr p => "error generating random data for " ++ p ++ ": " ++ w
  | GoErr.writeRandErr p => "error writing random data to " ++ p ++ ": " ++ w
  | GoErr.syncRandErr p => "error syncing file " ++ p ++ " after writing random data: " ++ w
  | GoErr.seekZeroErr p => "error seeking file " ++ p ++ " before zeroing: " ++ w
  | GoErr.writeZeroErr p => "error writing zeros to " ++ p ++ ": " ++ w
  | GoErr.syncZeroErr p => "error syncing file " ++ p ++ " after writing zeros: " ++ w
  | GoErr.closeErr p => "error closing file " ++ p ++ " before final operations: " ++ w
  | GoErr.truncateErr p => "error truncating file " ++ p ++ ": " ++ w
  | GoErr.nameRandErr => "error generating random bytes for new file name: " ++ w
  | GoErr.renameErr s d => "error renaming file from " ++ s ++ " to " ++ d ++ ": " ++ w

/-- The path a failure's error message reports on: the file being shredded
for every failure kind except the name-randomness read, whose message names
no path. -/
def errPath : GoErr → Option String
  | GoErr.notExist p => some p
  | GoErr.statErr p => some p
  | GoErr.openErr p => some p
  | GoErr.seekErr p => some p
  | GoErr.randErr p => some p
  | GoErr.writeRandErr p => some p
  | GoErr.syncRandErr p => some p
  | GoErr.seekZeroErr p => some p
  | GoErr.writeZeroErr p => some p
  | GoErr.syncZeroErr p => some p
  | GoErr.closeErr p => some p
  | GoErr.truncateErr p => some p
  | GoErr.nameRandErr => none
  | GoErr.renameErr s _ => some s

/-- Point update of the file-system map. -/
def fsUpdate (fs : FS) (p : String) (v : Option ℕ) : FS :=
  fun q => if q = p then v else fs q

/-- Effect of a successful in-place write through the open handle: the file's
length grows to at least the end of the written window. -/
def writeAct (p : String) (endPos : ℕ) (fs : FS) : FS :=
  fsUpdate fs p (some (max ((fs p).getD 0) endPos))

/-- Effect of a successful `os.Truncate(path, 0)`. -/
def truncAct (p : String) (fs : FS) : FS := fsUpdate fs p (some 0)

/-- Effect of a successful `os.Rename(src, dst)`. -/
def renameAct (src dst : String) (fs : FS) : FS :=
  fun q => if q = dst then fs src else if q = src then none else fs q

/-- One fallible operation: the error it fails with, and its effect on the
file system when it succeeds. -/
abbrev Step : Type := GoErr × (FS → FS)

/-- Fallible operations of one random pass, `main.go` lines 52-87: the seek,
then per chunk the `rand.Read`, the write, and the `Sync`. -/
def randPassSteps (path : String) (L : ℕ) : List Step :=
  (GoErr.seekErr path, id) ::
    (List.range (numChunksGo L)).flatMap (fun j =>
      [(GoErr.randErr path, id),
       (GoErr.writeRandErr path,
         writeAct path (j * chunkSizeGo + bufferSize L (numChunksGo L) j)),
       (GoErr.syncRandErr path, id)])

/-- Fallible operations of the zero pass, `main.go` lines 89-117. -/
def zeroPassSteps (path : String) (L : ℕ) : List Step :=
  (GoErr.seekZeroErr path, id) ::
    (List.range (numChunksGo L)).flatMap (fun j =>
      [(GoErr.writeZeroErr path,
         writeAct path (j * chunkSizeGo + bufferSize L (numChunksGo L) j)),
       (GoErr.syncZeroErr path, id)])

/-- All fallible operations of `SecureShredFile` before the rename, in program
order (`main.go` lines 22-133): stat, open, `N` random passes, the zero pass,
the explicit close, the truncation, the 32-byte name-randomness read. -/
def shredStepsPre (path : String) (L N : ℕ) : List Step :=
  [(GoErr.statErr path, id), (GoErr.openErr path, id)]
  ++ (List.range N).flatMap (fun _ => randPassSteps path L)
  ++ zeroPassSteps path L
  ++ [(GoErr.closeErr path, id),
      (GoErr.truncateErr path, truncAct path),
      (GoErr.nameRandErr, id)]

/-- All fallible operations of `SecureShredFile` after the initial existence
check, in program order (`main.go` lines 22-146). -/
def shredSteps (path newPath : String) (L N : ℕ) : List Step :=
  shredStepsPre path L N ++ [(GoErr.renameErr path newPath, renameAct path newPath)]

/-- Run the operations in order against a fault oracle: `oracle k = true`
makes the `k`-th operation fail, in which case its error is returned at once
(mirroring the code's immediate `return false, "", fmt.Errorf(...)`) and the
file system is left exactly as the successful prefix produced it. -/
def runSteps (oracle : ℕ → Bool) : ℕ → List Step → FS → Except GoErr Unit × FS
  | _, [], fs => (Except.ok (), fs)
  | k, s :: rest, fs =>
    if oracle k then (Except.error s.1, fs) else runSteps oracle (k + 1) rest (s.2 fs)

/-- The engine `SecureShredFile(filePath, passes, cb)` under a fault oracle,
returning the Go result triple `(success, newPath, err)` together with the
resulting file system.  `ts` and `rb` stand for the sampled Unix timestamp
and the 32 random name bytes. -/
def SecureShredFileM (oracle : ℕ → Bool) (fs : FS) (path : String) (N ts : ℕ)
    (rb : List ℕ) : (Bool × String × Option GoErr) × FS :=
  match fs path with
  | none => ((false, "", some (GoErr.notExist path)), fs)
  | some L =>
    match runSteps oracle 0 (shredSteps path (newPathGo path ts rb) L N) fs with
    | (Except.ok _, fs2) => ((true, newPathGo path ts rb, none), fs2)
    | (Except.error e, fs2) => ((false, "", some e), fs2)

/-- The `shred` wrapper (`main.go` lines 157-192) under the same oracle: on
engine success it removes the renamed file (the default deletion policy);
`removeFails` injects a failure of that final `os.Remove`, which the wrapper
only logs. -/
def shredM (oracle : ℕ → Bool) (fs : FS) (path : String) (N ts : ℕ) (rb : List ℕ)
    (removeFails : Bool) : (Bool × String × Option GoErr) × FS :=
  match SecureShredFileM oracle fs path N ts rb with
  | ((true, np, e), fs2) =>
    if removeFails then ((true, np, e), fs2) else ((true, np, e), fsUpdate fs2 np none)
  | r => r

/-- A string mentions another when the latter occurs contiguously in it. -/
def Mentions (s sub : String) : Prop := ∃ a b, s = a ++ sub ++ b

/-- An effect that can change the file system only at path `p`. -/
def TouchesOnly (p : String) (g : FS → FS) : Prop :=
  ∀ fs q, q ≠ p → g fs q = fs q

/-- An effect that never deletes the entry at path `p`. -/
def KeepsSome (p : String) (g : FS → FS) : Prop :=
  ∀ fs : FS, (fs p).isSome → ((g fs) p).isSome

theorem roundEvenInt_le (q : ℚ) : (roundEvenInt q : ℚ) ≤ q + 1/2 := by
  unfold roundEvenInt
  have h1 : (⌊q⌋ : ℚ) ≤ q := Int.floor_le q
  have h2 : q < ⌊q⌋ + 1 := Int.lt_floor_add_one q
  split
  · linarith
  · split
    · push_cast; linarith
    · split <;> push_cast <;> linarith

theorem le_roundEvenInt (q : ℚ) : q - 1/2 ≤ (roundEvenInt q : ℚ) := by
  unfold roundEvenInt
  have h1 : (⌊q⌋ : ℚ) ≤ q := Int.floor_le q
  have h2 : q < ⌊q⌋ + 1 := Int.lt_floor_add_one q
  split
  · linarith
  · split
    · push_cast; linarith
    · split <;> push_cast <;> linarith

theorem roundEvenInt_intCast (n : ℤ) : roundEvenInt (n : ℚ) = n := by
  unfold roundEvenInt
  rw [Int.floor_intCast]
  norm_num

theorem roundEvenInt_mono {a b : ℚ} (h : a ≤ b) : roundEvenInt a ≤ roundEvenInt b := by
  by_contra hcon
  push_neg at hcon
  have h1 : roundEvenInt b + 1 ≤ roundEvenInt a := Int.add_one_le_iff.mpr hcon
  have h2 : (roundEvenInt a : ℚ) ≤ a + 1/2 := roundEvenInt_le a
  have h3 : b - 1/2 ≤ (roundEvenInt b : ℚ) := le_roundEvenInt b
  have h4 : ((roundEvenInt b : ℤ) : ℚ) + 1 ≤ ((roundEvenInt a : ℤ) : ℚ) := by
    exact_mod_cast h1
  have hab : a = b := by linarith
  have heq : roundEvenInt a = roundEvenInt b := by rw [hab]
  omega

theorem rnd_of_nonpos {q : ℚ} (h : ¬ 0 < q) : rnd q = 0 := by
  unfold rnd
  simp [h]

theorem rnd_zero : rnd 0 = 0 := rnd_of_nonpos (by norm_num)

/-- Uniqueness of the binade: if `2^e ≤ q < 2^(e+1)` then `Int.log 2 q = e`. -/
theorem log_eq_of_bracket {q : ℚ} {e : ℤ} (h1 : (2:ℚ) ^ e ≤ q) (h2 : q < (2:ℚ) ^ (e + 1)) :
    Int.log 2 q = e := by
  have hq : 0 < q := lt_of_lt_of_le (zpow_pos (show (0:ℚ) < 2 by norm_num) e) h1
  have hcast : ((2:ℕ):ℚ) = (2:ℚ) := by norm_num
  have hle : e ≤ Int.log 2 q := by
    have h0 : Int.log 2 ((2:ℚ) ^ e) ≤ Int.log 2 q :=
      Int.log_mono_right (zpow_pos (show (0:ℚ) < 2 by norm_num) e) h1
    have h3 : Int.log 2 (((2:ℕ):ℚ) ^ e) = e := Int.log_zpow (by norm_num) e
    rw [hcast] at h3
    omega
  have hgt : Int.log 2 q ≤ e := by
    by_contra hcc
    push_neg at hcc
    have h4 : (2:ℚ) ^ (e+1) ≤ (2:ℚ) ^ (Int.log 2 q) :=
      zpow_le_zpow_right₀ (by norm_num) (by omega)
    have h5 : ((2:ℕ):ℚ) ^ (Int.log 2 q) ≤ q := Int.zpow_log_le_self (by norm_num) hq
    rw [hcast] at h5
    linarith
  omega

theorem rnd_eq_of_bracket {q : ℚ} {e : ℤ} {m : ℤ}
    (h1 : (2:ℚ) ^ e ≤ q) (h2 : q < (2:ℚ) ^ (e + 1))
    (hm : roundEvenInt (q * 2 ^ ((52 : ℤ) - e)) = m) :
    rnd q = (m : ℚ) * 2 ^ (e - (52 : ℤ)) := by
  have hq : 0 < q := lt_of_lt_of_le (zpow_pos (show (0:ℚ) < 2 by norm_num) e) h1
  unfold rnd
  rw [if_pos hq, log_eq_of_bracket h1 h2, hm]

theorem rnd_eq_self_of_int_scaled {q : ℚ} (hq : 0 < q)
    (h : ∃ n : ℤ, q * 2 ^ ((52:ℤ) - Int.log 2 q) = (n:ℚ)) : rnd q = q := by
  rcases h with ⟨n, hn⟩
  unfold rnd
  rw [if_pos hq, hn, roundEvenInt_intCast, ← hn, mul_assoc,
    ← zpow_add₀ (show (2:ℚ) ≠ 0 by norm_num)]
  norm_num

/-- A positive dyadic rational with significand at most `2^53` is exactly
representable in binary64: rounding it is the identity. -/
theorem rnd_dyadic {m : ℕ} {j : ℤ} (h1 : 0 < m) (h2 : m ≤ 2 ^ 53) :
    rnd ((m : ℚ) * 2 ^ j) = (m : ℚ) * 2 ^ j := by
  have hq : 0 < (m : ℚ) * 2 ^ j := by
    apply mul_pos (by exact_mod_cast h1) (zpow_pos (show (0:ℚ) < 2 by norm_num) j)
  apply rnd_eq_self_of_int_scaled hq
  set e : ℤ := Int.log 2 ((m : ℚ) * 2 ^ j) with he
  have hcast : ((2:ℕ):ℚ) = (2:ℚ) := by norm_num
  have hdown : ((2:ℕ):ℚ) ^ e ≤ (m : ℚ) * 2 ^ j := Int.zpow_log_le_self (by norm_num) hq
  rw [hcast] at hdown
  have hm2 : (m : ℚ) ≤ (2:ℚ) ^ (53:ℤ) := by
    rw [show ((2:ℚ) ^ (53:ℤ)) = ((9007199254740992 : ℕ) : ℚ) by norm_num]
    exact_mod_cast le_trans h2 (by norm_num)
  have hxle : (m:ℚ) * 2 ^ j ≤ (2:ℚ) ^ (j + 53) := by
    have hstep : (m:ℚ) * 2 ^ j ≤ (2:ℚ) ^ (53:ℤ) * 2 ^ j :=
      mul_le_mul_of_nonneg_right hm2 (zpow_nonneg (by norm_num) j)
    rw [← zpow_add₀ (show (2:ℚ) ≠ 0 by norm_num) 53 j] at hstep
    rw [show j + 53 = 53 + j by ring]
    exact hstep
  have hele : e ≤ j + 53 := by
    by_contra hcc
    push_neg at hcc
    have : (2:ℚ) ^ (j + 53) < (2:ℚ) ^ e := zpow_lt_zpow_right₀ (by norm_num) hcc
    linarith
  rcases lt_or_le e (j + 53) with hlt | hge
  · -- the scaled exponent j + 52 - e is nonnegative, so the scaling is integral
    refine ⟨(m : ℤ) * 2 ^ (j + 52 - e).toNat, ?_⟩
    rw [mul_assoc, ← zpow_add₀ (show (2:ℚ) ≠ 0 by norm_num)]
    push_cast
    rw [← zpow_natCast (2:ℚ) (j + 52 - e).toNat, Int.toNat_of_nonneg (by omega)]
    ring_nf
  · -- e = j + 53 forces m = 2^53 and the scaled value is 2^52
    have he' : e = j + 53 := le_antisymm hele hge
    have hm53 : m = 2 ^ 53 := by
      have hsplit : (2:ℚ) ^ (j + 53) = (2:ℚ) ^ (53:ℤ) * 2 ^ j := by
        rw [← zpow_add₀ (show (2:ℚ) ≠ 0 by norm_num) 53 j]
        ring_nf
      rw [he', hsplit] at hdown
      have h2j : (0:ℚ) < 2 ^ j := zpow_pos (show (0:ℚ) < 2 by norm_num) j
      have hmge : (2:ℚ) ^ (53:ℤ) ≤ (m:ℚ) := le_of_mul_le_mul_right (by linarith) h2j
      rw [show ((2:ℚ) ^ (53:ℤ)) = ((9007199254740992 : ℕ) : ℚ) by norm_num] at hmge
      have hge2 : (9007199254740992 : ℕ) ≤ m := by exact_mod_cast hmge
      omega
    refine ⟨(2:ℤ) ^ 52, ?_⟩
    rw [hm53, he']
    push_cast
    rw [show ((52:ℤ) - (j + 53)) = -1 + -j by ring,
      zpow_add₀ (show (2:ℚ) ≠ 0 by norm_num)]
    rw [show ((9007199254740992:ℚ)) = 2 ^ (53:ℤ) by norm_num]
    rw [show ((4503599627370496:ℚ)) = 2 ^ (52:ℤ) by norm_num]
    rw [mul_comm ((2:ℚ) ^ (-1:ℤ)) ((2:ℚ) ^ (-j:ℤ)), ← mul_assoc, mul_assoc ((2:ℚ) ^ (53:ℤ))]
    rw [← zpow_add₀ (show (2:ℚ) ≠ 0 by norm_num) j (-j),
      ← zpow_add₀ (show (2:ℚ) ≠ 0 by norm_num) 53 (j + -j)]
    norm_num

/-- Integers up to `2^53` convert to `float64` exactly. -/
theorem rnd_natCast {n : ℕ} (h : n ≤ 2 ^ 53) : rnd (n : ℚ) = (n : ℚ) := by
  rcases Nat.eq_zero_or_pos n with h0 | hpos
  · subst h0; simpa using rnd_zero
  · have hd := @rnd_dyadic n 0 hpos h
    simpa using hd

theorem zpow_log_le_rnd {q : ℚ} (hq : 0 < q) : (2:ℚ) ^ (Int.log 2 q) ≤ rnd q := by
  unfold rnd
  rw [if_pos hq]
  set e : ℤ := Int.log 2 q with he
  set x : ℚ := q * 2 ^ ((52:ℤ) - e) with hx
  have hcast : ((2:ℕ):ℚ) = (2:ℚ) := by norm_num
  have hdown : ((2:ℕ):ℚ) ^ e ≤ q := Int.zpow_log_le_self (by norm_num) hq
  rw [hcast] at hdown
  have hxge : (2:ℚ) ^ (52:ℤ) ≤ x := by
    have := mul_le_mul_of_nonneg_right hdown (zpow_nonneg (show (0:ℚ) ≤ 2 by norm_num) ((52:ℤ) - e))
    rwa [← zpow_add₀ (show (2:ℚ) ≠ 0 by norm_num), show e + ((52:ℤ) - e) = 52 by ring] at this
  have h52 : ((2:ℚ) ^ (52:ℤ)) = (4503599627370496 : ℚ) := by norm_num
  have hmlow : (4503599627370495 : ℤ) < roundEvenInt x := by
    have hb := le_roundEvenInt x
    have : (4503599627370495 : ℚ) < (roundEvenInt x : ℚ) := by
      rw [h52] at hxge; linarith
    exact_mod_cast this
  calc (2:ℚ) ^ e = (2:ℚ) ^ (52:ℤ) * 2 ^ (e - (52:ℤ)) := by
        rw [← zpow_add₀ (show (2:ℚ) ≠ 0 by norm_num), show (52:ℤ) + (e - 52) = e by ring]
    _ ≤ (roundEvenInt x : ℚ) * 2 ^ (e - (52:ℤ)) := by
        apply mul_le_mul_of_nonneg_right _ (zpow_nonneg (show (0:ℚ) ≤ 2 by norm_num) _)
        rw [h52]
        exact_mod_cast (by omega : (4503599627370496:ℤ) ≤ roundEvenInt x)

theorem rnd_le_zpow_succ_log {q : ℚ} (hq : 0 < q) : rnd q ≤ (2:ℚ) ^ (Int.log 2 q + 1) := by
  unfold rnd
  rw [if_pos hq]
  set e : ℤ := Int.log 2 q with he
  set x : ℚ := q * 2 ^ ((52:ℤ) - e) with hx
  have hcast : ((2:ℕ):ℚ) = (2:ℚ) := by norm_num
  have hup : q < ((2:ℕ):ℚ) ^ (e + 1) := Int.lt_zpow_succ_log_self (by norm_num) q
  rw [hcast] at hup
  have hxlt : x < (2:ℚ) ^ (53:ℤ) := by
    have := mul_lt_mul_of_pos_right hup (zpow_pos (show (0:ℚ) < 2 by norm_num) ((52:ℤ) - e))
    rwa [← zpow_add₀ (show (2:ℚ) ≠ 0 by norm_num), show e + 1 + ((52:ℤ) - e) = 53 by ring] at this
  have h53 : ((2:ℚ) ^ (53:ℤ)) = (9007199254740992 : ℚ) := by norm_num
  have hmhi : roundEvenInt x < 9007199254740993 := by
    have hb := roundEvenInt_le x
    have : (roundEvenInt x : ℚ) < (9007199254740993 : ℚ) := by
      rw [h53] at hxlt; linarith
    exact_mod_cast this
  have hmle : (roundEvenInt x : ℚ) ≤ ((9007199254740992 : ℤ) : ℚ) := by
    exact_mod_cast (by omega : roundEvenInt x ≤ 9007199254740992)
  calc (roundEvenInt x : ℚ) * 2 ^ (e - (52:ℤ))
      ≤ (9007199254740992 : ℚ) * 2 ^ (e - (52:ℤ)) := by
        apply mul_le_mul_of_nonneg_right _ (zpow_nonneg (show (0:ℚ) ≤ 2 by norm_num) _)
        exact_mod_cast hmle
    _ = (2:ℚ) ^ (e + 1) := by
        rw [show (9007199254740992 : ℚ) = (2:ℚ) ^ (53:ℤ) by norm_num,
          ← zpow_add₀ (show (2:ℚ) ≠ 0 by norm_num), show (53:ℤ) + (e - 52) = e + 1 by ring]

theorem rnd_pos {q : ℚ} (hq : 0 < q) : 0 < rnd q :=
  lt_of_lt_of_le (zpow_pos (show (0:ℚ) < 2 by norm_num) (Int.log 2 q)) (zpow_log_le_rnd hq)

theorem rnd_nonneg (q : ℚ) : 0 ≤ rnd q := by
  rcases lt_or_le 0 q with h | h
  · exact le_of_lt (rnd_pos h)
  · rw [rnd_of_nonpos (not_lt.mpr h)]

/-- Binary64 rounding is monotone. -/
theorem rnd_mono {a b : ℚ} (hab : a ≤ b) : rnd a ≤ rnd b := by
  rcases lt_or_le 0 a with ha | ha
  · have hb : 0 < b := lt_of_lt_of_le ha hab
    have hlog : Int.log 2 a ≤ Int.log 2 b := Int.log_mono_right ha hab
    rcases lt_or_eq_of_le hlog with hlt | heq
    · calc rnd a ≤ (2:ℚ) ^ (Int.log 2 a + 1) := rnd_le_zpow_succ_log ha
        _ ≤ (2:ℚ) ^ (Int.log 2 b) := zpow_le_zpow_right₀ (by norm_num) (by omega)
        _ ≤ rnd b := zpow_log_le_rnd hb
    · unfold rnd
      rw [if_pos ha, if_pos hb, ← heq]
      apply mul_le_mul_of_nonneg_right _ (zpow_nonneg (show (0:ℚ) ≤ 2 by norm_num) _)
      have : roundEvenInt (a * 2 ^ ((52:ℤ) - Int.log 2 a)) ≤
          roundEvenInt (b * 2 ^ ((52:ℤ) - Int.log 2 a)) := by
        apply roundEvenInt_mono
        exact mul_le_mul_of_nonneg_right hab (zpow_nonneg (show (0:ℚ) ≤ 2 by norm_num) _)
      exact_mod_cast this
  · rw [rnd_of_nonpos (not_lt.mpr ha)]
    exact rnd_nonneg b

theorem roundEvenInt_eq_of_lt {q : ℚ} {n : ℤ} (h1 : (n:ℚ) ≤ q) (h2 : q < (n:ℚ) + 1)
    (h3 : q - (n:ℚ) < 1/2) : roundEvenInt q = n := by
  have hf : ⌊q⌋ = n := Int.floor_eq_iff.mpr ⟨h1, h2⟩
  unfold roundEvenInt
  rw [hf, if_pos h3]

theorem roundEvenInt_eq_of_tie_even {q : ℚ} {n : ℤ} (h1 : (n:ℚ) ≤ q) (h2 : q < (n:ℚ) + 1)
    (h3 : q - (n:ℚ) = 1/2) (h4 : n % 2 = 0) : roundEvenInt q = n := by
  have hf : ⌊q⌋ = n := Int.floor_eq_iff.mpr ⟨h1, h2⟩
  unfold roundEvenInt
  rw [hf, if_neg (by rw [h3]; norm_num), if_neg (by rw [h3]; norm_num), if_pos h4]

theorem rnd_one : rnd (1:ℚ) = 1 := by
  have h := @rnd_natCast 1 (by norm_num)
  simpa using h

theorem rnd_hundred : rnd (100:ℚ) = 100 := by
  have h := @rnd_natCast 100 (by norm_num)
  simpa using h

theorem rnd_chunk : rnd ((chunkSizeGo : ℕ) : ℚ) = ((chunkSizeGo : ℕ) : ℚ) :=
  rnd_natCast (by norm_num [chunkSizeGo])

theorem f64toInt_eq_floor {q : ℚ} (h : 0 ≤ q) : f64toInt q = ⌊q⌋ := by
  unfold f64toInt
  rw [if_pos h]

theorem numChunksGo_pos (L : ℕ) : 1 ≤ numChunksGo L := by
  unfold numChunksGo
  split
  · rename_i hpos
    have h1 : (0:ℚ) < rnd (L : ℚ) := rnd_pos (by exact_mod_cast hpos)
    have h2 : (0:ℚ) < rnd ((chunkSizeGo : ℕ) : ℚ) := by
      rw [rnd_chunk]
      norm_num [chunkSizeGo]
    have h3 : (0:ℚ) < rnd (rnd (L : ℚ) / rnd ((chunkSizeGo : ℕ) : ℚ)) :=
      rnd_pos (div_pos h1 h2)
    have h4 : 0 < ⌈rnd (rnd (L : ℚ) / rnd ((chunkSizeGo : ℕ) : ℚ))⌉ := Int.ceil_pos.mpr h3
    omega
  · omega

/-- For file sizes up to `2^53` (where `float64` is exact on integers) the
code's chunk count agrees with the specification's `max(1, ceil(L / C))`. -/
theorem numChunksGo_eq_spec {L : ℕ} (h : L ≤ 2 ^ 53) : numChunksGo L = numChunksSpec L := by
  rcases Nat.eq_zero_or_pos L with h0 | hpos
  · subst h0
    unfold numChunksGo numChunksSpec chunkSizeGo
    norm_num
  · unfold numChunksGo
    rw [if_pos hpos, rnd_chunk, rnd_natCast h]
    have hcq : ((chunkSizeGo : ℕ) : ℚ) = 65536 := by norm_num [chunkSizeGo]
    rw [hcq]
    have hdy : (L : ℚ) / 65536 = ((L : ℕ) : ℚ) * 2 ^ ((-16):ℤ) := by
      rw [show ((2:ℚ) ^ ((-16):ℤ)) = 1 / 65536 by norm_num]
      ring
    rw [hdy, rnd_dyadic hpos h, ← hdy]
    set z : ℕ := (L + 65535) / 65536 with hz
    have f1 : L ≤ 65536 * z := by omega
    have f2 : 65536 * z < L + 65536 := by omega
    have hceil : ⌈(L : ℚ) / 65536⌉ = (z : ℤ) := by
      rw [Int.ceil_eq_iff]
      constructor
      · rw [lt_div_iff₀ (by norm_num : (0:ℚ) < 65536)]
        push_cast
        have : (65536 : ℚ) * z < (L : ℚ) + 65536 := by exact_mod_cast f2
        linarith
      · rw [div_le_iff₀ (by norm_num : (0:ℚ) < 65536)]
        push_cast
        have : (L : ℚ) ≤ 65536 * z := by exact_mod_cast f1
        linarith
    rw [hceil, Int.toNat_natCast]
    unfold numChunksSpec chunkSizeGo
    omega

theorem bufferSize_pos (L num j : ℕ) : 0 < bufferSize L num j := by
  simp only [bufferSize, chunkSizeGo]
  split_ifs <;> omega

theorem bufferSize_eq_windowLenSpec (L num j : ℕ) :
    bufferSize L num j = windowLenSpec L num j := rfl

theorem bufferSize_of_ne_last {L num j : ℕ} (h : j ≠ num - 1) :
    bufferSize L num j = chunkSizeGo := by
  simp only [bufferSize, chunkSizeGo]
  have hcond : ¬ (j = num - 1 ∧ L % (64 * 1024) ≠ 0) := fun hc => h hc.1
  rw [if_neg hcond]
  norm_num

theorem pct_nonneg (k t : ℕ) : 0 ≤ pct k t := by
  unfold pct
  have hq : (0:ℚ) ≤ rnd (rnd (rnd (k : ℚ) / rnd (t : ℚ)) * 100) := rnd_nonneg _
  rw [f64toInt_eq_floor hq]
  exact Int.floor_nonneg.mpr hq

theorem pct_le_100 {k t : ℕ} (hk : k ≤ t) (ht : 0 < t) : pct k t ≤ 100 := by
  unfold pct
  have h1 : rnd (k:ℚ) ≤ rnd (t:ℚ) := rnd_mono (by exact_mod_cast hk)
  have h2 : (0:ℚ) < rnd (t:ℚ) := rnd_pos (by exact_mod_cast ht)
  have h3 : rnd (k:ℚ) / rnd (t:ℚ) ≤ 1 := (div_le_one h2).mpr h1
  have h4 : rnd (rnd (k:ℚ) / rnd (t:ℚ)) ≤ 1 := by
    calc rnd (rnd (k:ℚ) / rnd (t:ℚ)) ≤ rnd 1 := rnd_mono h3
      _ = 1 := rnd_one
  have h5 : rnd (rnd (k:ℚ) / rnd (t:ℚ)) * 100 ≤ 100 := by
    have := mul_le_mul_of_nonneg_right h4 (show (0:ℚ) ≤ 100 by norm_num)
    linarith
  have h6 : rnd (rnd (rnd (k:ℚ) / rnd (t:ℚ)) * 100) ≤ 100 := by
    calc rnd (rnd (rnd (k:ℚ) / rnd (t:ℚ)) * 100) ≤ rnd 100 := rnd_mono h5
      _ = 100 := rnd_hundred
  rw [f64toInt_eq_floor (rnd_nonneg _)]
  have h7 : ⌊rnd (rnd (rnd (k:ℚ) / rnd (t:ℚ)) * 100)⌋ ≤ ⌊(((100:ℤ)):ℚ)⌋ :=
    Int.floor_le_floor (by exact_mod_cast h6)
  rwa [Int.floor_intCast] at h7

theorem pct_mono {k j t : ℕ} (h : k ≤ j) : pct k t ≤ pct j t := by
  unfold pct
  have h1 : rnd (k:ℚ) ≤ rnd (j:ℚ) := rnd_mono (by exact_mod_cast h)
  have h2 : rnd (k:ℚ) / rnd (t:ℚ) ≤ rnd (j:ℚ) / rnd (t:ℚ) :=
    div_le_div_of_nonneg_right h1 (rnd_nonneg _)
  have h3 := rnd_mono h2
  have h4 := mul_le_mul_of_nonneg_right h3 (show (0:ℚ) ≤ 100 by norm_num)
  have h5 := rnd_mono h4
  rw [f64toInt_eq_floor (rnd_nonneg _), f64toInt_eq_floor (rnd_nonneg _)]
  exact Int.floor_le_floor h5

theorem pct_self {t : ℕ} (ht : 0 < t) : pct t t = 100 := by
  unfold pct
  have h2 : rnd (t:ℚ) ≠ 0 := ne_of_gt (rnd_pos (by exact_mod_cast ht))
  rw [div_self h2, rnd_one, one_mul, rnd_hundred,
    f64toInt_eq_floor (by norm_num : (0:ℚ) ≤ 100)]
  rw [show ((100:ℚ)) = (((100:ℤ)):ℚ) by norm_num, Int.floor_intCast]

/-- The concrete binary64 evaluation of `29/50 * 100` lands just below 58 and
truncates to 57, one below the exact `floor(29 * 100 / 50) = 58`. -/
theorem pct_29_50 : pct 29 50 = 57 := by
  unfold pct
  have h29 : rnd ((29:ℕ) : ℚ) = ((29:ℕ) : ℚ) := rnd_natCast (by norm_num)
  have h50 : rnd ((50:ℕ) : ℚ) = ((50:ℕ) : ℚ) := rnd_natCast (by norm_num)
  have c29 : ((29:ℕ) : ℚ) = 29 := by norm_num
  have c50 : ((50:ℕ) : ℚ) = 50 := by norm_num
  rw [h29, h50, c29, c50]
  have hq1 : rnd ((29:ℚ)/50) = ((5224175567749775 : ℤ) : ℚ) * 2 ^ ((-1:ℤ) - 52) := by
    apply rnd_eq_of_bracket
    · norm_num
    · norm_num
    · apply roundEvenInt_eq_of_lt <;> norm_num
  rw [hq1]
  have hx : rnd (((5224175567749775 : ℤ) : ℚ) * 2 ^ ((-1:ℤ) - 52) * 100) =
      ((8162774324609023 : ℤ) : ℚ) * 2 ^ ((5:ℤ) - 52) := by
    apply rnd_eq_of_bracket
    · norm_num
    · norm_num
    · apply roundEvenInt_eq_of_lt <;> norm_num
  rw [hx, f64toInt_eq_floor (by norm_num)]
  rw [Int.floor_eq_iff]
  constructor <;> norm_num

/-- The `float64` conversion of `2^53 + 1` rounds down to `2^53` (tie to even),
so the code's chunk count at `L = 2^53 + 1` is `2^37`, not the specification's
`ceil(L / 65536) = 2^37 + 1`. -/
theorem numChunksGo_big : numChunksGo 9007199254740993 = 137438953472 := by
  unfold numChunksGo
  rw [if_pos (by norm_num), rnd_chunk]
  have hL : rnd ((9007199254740993 : ℕ) : ℚ) = ((4503599627370496 : ℤ) : ℚ) * 2 ^ ((53:ℤ) - 52) := by
    apply rnd_eq_of_bracket
    · norm_num
    · norm_num
    · apply roundEvenInt_eq_of_tie_even
      · norm_num
      · norm_num
      · norm_num
      · norm_num
  rw [hL]
  have hq : ((4503599627370496 : ℤ) : ℚ) * 2 ^ ((53:ℤ) - 52) / ((chunkSizeGo : ℕ) : ℚ) =
      ((137438953472 : ℕ) : ℚ) := by
    norm_num [chunkSizeGo]
  rw [hq, rnd_natCast (by norm_num), Int.ceil_natCast, Int.toNat_natCast]

theorem numChunksSpec_big : numChunksSpec 9007199254740993 = 137438953473 := by
  unfold numChunksSpec chunkSizeGo
  norm_num

theorem progValues_append (xs ys : List Ev) :
    progValues (xs ++ ys) = progValues xs ++ progValues ys :=
  List.filterMap_append xs ys _

theorem writesOf_append (xs ys : List Ev) :
    writesOf (xs ++ ys) = writesOf xs ++ writesOf ys :=
  List.filterMap_append xs ys _

theorem progValues_flatMap (l : List ℕ) (f : ℕ → List Ev) :
    progValues (l.flatMap f) = l.flatMap (fun j => progValues (f j)) := by
  induction l with
  | nil => rfl
  | cons a l ih => rw [List.flatMap_cons, progValues_append, ih, List.flatMap_cons]

theorem writesOf_flatMap (l : List ℕ) (f : ℕ → List Ev) :
    writesOf (l.flatMap f) = l.flatMap (fun j => writesOf (f j)) := by
  induction l with
  | nil => rfl
  | cons a l ih => rw [List.flatMap_cons, writesOf_append, ih, List.flatMap_cons]

theorem flatMap_singleton_eq_map {α β : Type} (l : List α) (f : α → β) :
    l.flatMap (fun x => [f x]) = l.map f := by
  induction l with
  | nil => rfl
  | cons a l ih => rw [List.flatMap_cons, List.map_cons, List.singleton_append, ih]

theorem progValues_chunkBlock (L num total base : ℕ) (p : Payload) (j : ℕ) :
    progValues (chunkBlock L num total base p j) = [pct (base + j + 1) total] := rfl

theorem writesOf_chunkBlock (L num total base : ℕ) (p : Payload) (j : ℕ) :
    writesOf (chunkBlock L num total base p j) =
      [(j * chunkSizeGo, bufferSize L num j, p)] := rfl

theorem progValues_passEvents (L num total base : ℕ) (p : Payload) :
    progValues (passEvents L num total base p) =
      (List.range num).map (fun j => pct (base + j + 1) total) := by
  unfold passEvents
  rw [show (Ev.seek 0 :: (List.range num).flatMap (chunkBlock L num total base p)) =
      [Ev.seek 0] ++ (List.range num).flatMap (chunkBlock L num total base p) from rfl,
    progValues_append, progValues_flatMap,
    show progValues [Ev.seek 0] = [] from rfl, List.nil_append]
  simp only [progValues_chunkBlock]
  exact flatMap_singleton_eq_map _ _

theorem writesOf_passEvents (L num total base : ℕ) (p : Payload) :
    writesOf (passEvents L num total base p) =
      (List.range num).map (fun j => (j * chunkSizeGo, bufferSize L num j, p)) := by
  unfold passEvents
  rw [show (Ev.seek 0 :: (List.range num).flatMap (chunkBlock L num total base p)) =
      [Ev.seek 0] ++ (List.range num).flatMap (chunkBlock L num total base p) from rfl,
    writesOf_append, writesOf_flatMap,
    show writesOf [Ev.seek 0] = [] from rfl, List.nil_append]
  simp only [writesOf_chunkBlock]
  exact flatMap_singleton_eq_map _ _

theorem pct_range_flatMap (num total N : ℕ) :
    (List.range N).flatMap
        (fun i => (List.range num).map (fun j => pct (i * num + j + 1) total)) =
      (List.range (N * num)).map (fun k => pct (k + 1) total) := by
  induction N with
  | zero => simp
  | succ N ih =>
    rw [List.range_succ N, List.flatMap_append, ih, List.flatMap_singleton,
      show (N + 1) * num = N * num + num from by ring, List.range_add,
      List.map_append, List.map_map]
    rfl

theorem progValues_overwriteEvents (L N : ℕ) :
    progValues (overwriteEvents L N) =
      (List.range (N * numChunksGo L + numChunksGo L)).map
        (fun k => pct (k + 1) (N * numChunksGo L + numChunksGo L)) := by
  unfold overwriteEvents
  rw [progValues_append, progValues_flatMap]
  simp only [progValues_passEvents]
  rw [pct_range_flatMap, List.range_add, List.map_append, List.map_map]
  rfl

theorem progValues_runTrace (L N : ℕ) (orig dst : String) :
    progValues (runTrace L N orig dst) = progValues (overwriteEvents L N) ++ [100] := by
  unfold runTrace
  rw [progValues_append]
  rfl

theorem map_range_getLast {α : Type} (f : ℕ → α) {t : ℕ} (h : 0 < t) :
    ((List.range t).map f).getLast? = some (f (t - 1)) := by
  obtain ⟨s, rfl⟩ : ∃ s, t = s + 1 := ⟨t - 1, by omega⟩
  rw [List.range_succ s, List.map_append]
  simp

theorem chain_pct_map (t : ℕ) :
    List.Chain' (fun a b => a ≤ b) ((List.range t).map (fun k => pct (k + 1) t)) := by
  rw [List.chain'_map]
  cases t with
  | zero => simp
  | succ s =>
    exact (List.chain'_range_succ
      (fun a b => pct (a + 1) (s + 1) ≤ pct (b + 1) (s + 1)) s).mpr
      (fun m hm => pct_mono (by omega))

theorem fbp_nil : FlushedBeforeProg [] := by
  intro i v h
  simp at h

theorem fbp_append {xs ys : List Ev} (hx : FlushedBeforeProg xs) (hy : FlushedBeforeProg ys) :
    FlushedBeforeProg (xs ++ ys) := by
  intro i v h
  rcases lt_or_le i xs.length with hi | hi
  · rw [List.getElem?_append_left hi] at h
    obtain ⟨h2, hs, o, l, p, hw⟩ := hx i v h
    refine ⟨h2, ?_, o, l, p, ?_⟩
    · rw [List.getElem?_append_left (show i - 1 < xs.length by omega)]
      exact hs
    · rw [List.getElem?_append_left (show i - 2 < xs.length by omega)]
      exact hw
  · rw [List.getElem?_append_right hi] at h
    obtain ⟨h2, hs, o, l, p, hw⟩ := hy _ v h
    refine ⟨by omega, ?_, o, l, p, ?_⟩
    · rw [List.getElem?_append_right (show xs.length ≤ i - 1 by omega),
        show i - 1 - xs.length = i - xs.length - 1 from by omega]
      exact hs
    · rw [List.getElem?_append_right (show xs.length ≤ i - 2 by omega),
        show i - 2 - xs.length = i - xs.length - 2 from by omega]
      exact hw

theorem fbp_seek (k : ℕ) : FlushedBeforeProg [Ev.seek k] := by
  intro i v h
  match i with
  | 0 => simp at h
  | n + 1 => simp at h

theorem fbp_chunkBlock (L num total base : ℕ) (p : Payload) (j : ℕ) :
    FlushedBeforeProg (chunkBlock L num total base p j) := by
  intro i v h
  unfold chunkBlock at h
  match i with
  | 0 => simp at h
  | 1 => simp at h
  | 2 =>
    refine ⟨by omega, ?_, j * chunkSizeGo, bufferSize L num j, p, ?_⟩ <;> rfl
  | n + 3 => simp at h

theorem fbp_flatMap (l : List ℕ) (f : ℕ → List Ev) (hf : ∀ j, FlushedBeforeProg (f j)) :
    FlushedBeforeProg (l.flatMap f) := by
  induction l with
  | nil => exact fbp_nil
  | cons a l ih =>
    rw [List.flatMap_cons]
    exact fbp_append (hf a) ih

theorem fbp_passEvents (L num total base : ℕ) (p : Payload) :
    FlushedBeforeProg (passEvents L num total base p) := by
  unfold passEvents
  rw [show (Ev.seek 0 :: (List.range num).flatMap (chunkBlock L num total base p)) =
      [Ev.seek 0] ++ (List.range num).flatMap (chunkBlock L num total base p) from rfl]
  exact fbp_append (fbp_seek 0) (fbp_flatMap _ _ (fbp_chunkBlock L num total base p))

theorem fbp_overwriteEvents (L N : ℕ) : FlushedBeforeProg (overwriteEvents L N) := by
  unfold overwriteEvents
  exact fbp_append
    (fbp_flatMap _ _ (fun i => fbp_passEvents L (numChunksGo L)
      (N * numChunksGo L + numChunksGo L) (i * numChunksGo L) Payload.random))
    (fbp_passEvents L (numChunksGo L) (N * numChunksGo L + numChunksGo L)
      (N * numChunksGo L) Payload.zero)

theorem padTo6_append {l1 l2 : List ℕ} (h : l1.length % 6 = 0) :
    padTo6 (l1 ++ l2) = l1 ++ padTo6 l2 := by
  unfold padTo6
  rw [List.length_append, List.append_assoc]
  congr 3
  omega

/-- Go's blockwise base64url encoder agrees with the specification's
bit-string description of base64url without padding. -/
theorem goB64_eq_specB64 : ∀ (bytes : List ℕ), (∀ b ∈ bytes, b < 256) →
    goB64 bytes = specB64 bytes := by
  intro bytes
  induction bytes using goB64.induct with
  | case1 b0 b1 b2 rest ih =>
    intro hb
    have h0 : b0 < 256 := hb b0 (by simp)
    have h1 : b1 < 256 := hb b1 (by simp)
    have h2 : b2 < 256 := hb b2 (by simp)
    have hrest : ∀ b ∈ rest, b < 256 := fun b hbm => hb b (by simp [hbm])
    have hsplit : specB64 (b0 :: b1 :: b2 :: rest) =
        b64Char (sixVal [b0/128%2, b0/64%2, b0/32%2, b0/16%2, b0/8%2, b0/4%2]) ::
        b64Char (sixVal [b0/2%2, b0%2, b1/128%2, b1/64%2, b1/32%2, b1/16%2]) ::
        b64Char (sixVal [b1/8%2, b1/4%2, b1/2%2, b1%2, b2/128%2, b2/64%2]) ::
        b64Char (sixVal [b2/32%2, b2/16%2, b2/8%2, b2/4%2, b2/2%2, b2%2]) ::
        specB64 rest := by
      unfold specB64
      rw [List.flatMap_cons, List.flatMap_cons, List.flatMap_cons,
        ← List.append_assoc, ← List.append_assoc,
        padTo6_append (by simp [bits8])]
      simp [bits8, groups6]
    rw [hsplit]
    simp only [goB64, sixVal]
    congr 1
    · exact congrArg b64Char (by omega)
    congr 1
    · exact congrArg b64Char (by omega)
    congr 1
    · exact congrArg b64Char (by omega)
    congr 1
    · exact congrArg b64Char (by omega)
    exact ih hrest
  | case2 b0 b1 =>
    intro hb
    have h0 : b0 < 256 := hb b0 (by simp)
    have h1 : b1 < 256 := hb b1 (by simp)
    simp only [goB64]
    unfold specB64 padTo6
    simp [bits8, groups6, sixVal]
    refine ⟨congrArg b64Char (by omega), congrArg b64Char (by omega),
      congrArg b64Char (by omega)⟩
  | case3 b0 =>
    intro hb
    have h0 : b0 < 256 := hb b0 (by simp)
    simp only [goB64]
    unfold specB64 padTo6
    simp [bits8, groups6, sixVal]
    refine ⟨congrArg b64Char (by omega), congrArg b64Char (by omega)⟩
  | case4 =>
    intro hb
    rfl

theorem b64Char_mem (n : ℕ) : b64Char n ∈ b64Alphabet := by
  unfold b64Char
  rw [List.getD_eq_getElem?_getD]
  rcases h : b64Alphabet[n]? with _ | c
  · simp only [Option.getD_none]
    decide
  · simp only [Option.getD_some]
    obtain ⟨hn, rfl⟩ := List.getElem?_eq_some.mp h
    exact List.getElem_mem hn

theorem goB64_mem_alphabet : ∀ (bytes : List ℕ), ∀ c ∈ goB64 bytes, c ∈ b64Alphabet := by
  intro bytes
  induction bytes using goB64.induct with
  | case1 b0 b1 b2 rest ih =>
    intro c hc
    simp only [goB64, List.mem_cons] at hc
    rcases hc with rfl | rfl | rfl | rfl | hc
    · exact b64Char_mem _
    · exact b64Char_mem _
    · exact b64Char_mem _
    · exact b64Char_mem _
    · exact ih c hc
  | case2 b0 b1 =>
    intro c hc
    simp only [goB64, List.mem_cons] at hc
    rcases hc with rfl | rfl | rfl | hc
    · exact b64Char_mem _
    · exact b64Char_mem _
    · exact b64Char_mem _
    · simp at hc
  | case3 b0 =>
    intro c hc
    simp only [goB64, List.mem_cons] at hc
    rcases hc with rfl | rfl | hc
    · exact b64Char_mem _
    · exact b64Char_mem _
    · simp at hc
  | case4 =>
    intro c hc
    simp [goB64] at hc

theorem newFileNameGo_no_slash (ts : ℕ) (rb : List ℕ) :
    '/' ∉ (newFileNameGo ts rb).data := by
  intro hc
  unfold newFileNameGo at hc
  rw [String.data_append, String.data_append] at hc
  simp only [List.mem_append] at hc
  have hno : ('/' : Char) ∉ b64Alphabet := by decide
  rcases hc with (hc | hc) | hc
  · exact hno (goB64_mem_alphabet _ _ hc)
  · simp only [show ("_" : String).data = ['_'] from rfl, List.mem_singleton] at hc
    exact absurd hc (by decide)
  · exact hno (goB64_mem_alphabet _ _ hc)

theorem dropWhile_append_of_all {p : Char → Bool} {l1 l2 : List Char}
    (h : ∀ x ∈ l1, p x = true) :
    List.dropWhile p (l1 ++ l2) = List.dropWhile p l2 := by
  rw [List.dropWhile_append, if_pos]
  rw [List.dropWhile_eq_nil_iff.mpr h]
  rfl

theorem string_ne_empty_data {d : String} (h : d ≠ "") : d.data ≠ [] := by
  intro hd
  apply h
  cases d with
  | mk l => cases hd; rfl

theorem no_slash_rev_pred {n : String} (hn : '/' ∉ n.data) :
    ∀ x ∈ n.data.reverse, (fun c => decide (c ≠ '/')) x = true := by
  intro x hx
  rw [List.mem_reverse] at hx
  simp only [decide_eq_true_eq]
  intro hxeq
  exact hn (hxeq ▸ hx)

/-- For a clean non-root directory `d` and a separator-free name `n`,
Go's `Dir(Join(d, n))` returns `d`. -/
theorem goDir_join {d n : String} (hd : d ≠ ".") (hd2 : d ≠ "")
    (hd3 : d.data.getLast? ≠ some '/') (hn : '/' ∉ n.data) :
    goDir (goJoin d n) = d := by
  unfold goJoin
  rw [if_neg hd, if_neg hd3]
  simp only [goDir]
  rw [String.data_append, String.data_append,
    show ("/" : String).data = ['/'] from rfl, List.append_assoc,
    List.singleton_append, List.reverse_append, List.reverse_cons,
    List.append_assoc, List.singleton_append,
    dropWhile_append_of_all (no_slash_rev_pred hn),
    show List.dropWhile (fun c => decide (c ≠ '/')) ('/' :: d.data.reverse) =
      '/' :: d.data.reverse from by simp [List.dropWhile_cons]]
  rw [if_neg (by simp), if_neg (by
    simp only [List.cons.injEq, true_and]
    exact fun hc => string_ne_empty_data hd2 (List.reverse_eq_nil_iff.mp hc))]
  simp only [List.drop_succ_cons, List.drop_zero, List.reverse_reverse]

/-- For a root-level file, `Dir(Join("/", n))` returns `"/"`. -/
theorem goDir_root_join {n : String} (hn : '/' ∉ n.data) :
    goDir (goJoin ("/") n) = "/" := by
  unfold goJoin
  rw [if_neg (by decide), if_pos (by decide)]
  simp only [goDir]
  rw [String.data_append, show ("/" : String).data = ['/'] from rfl,
    List.singleton_append, List.reverse_cons,
    dropWhile_append_of_all (no_slash_rev_pred hn)]
  rw [show List.dropWhile (fun c => decide (c ≠ '/')) ['/'] = ['/'] from by decide]
  rw [if_neg (by simp), if_pos rfl]

theorem decBytes_lt (n : ℕ) : ∀ b ∈ decBytes n, b < 256 := by
  intro b hb
  unfold decBytes at hb
  split at hb
  · simp at hb
    omega
  · simp only [List.mem_map, List.mem_reverse] at hb
    obtain ⟨d, hd, rfl⟩ := hb
    have := Nat.digits_lt_base (by norm_num) hd
    omega

theorem mentions_of_errPath {e : GoErr} {p : String} (h : errPath e = some p) (w : String) :
    Mentions (errMsg e w) p := by
  cases e with
  | notExist q =>
    obtain rfl : q = p := Option.some.inj h
    exact ⟨"file does not exist: ", "", by simp [errMsg]⟩
  | statErr q =>
    obtain rfl : q = p := Option.some.inj h
    exact ⟨"error getting file info for ", ": " ++ w, by simp [errMsg, String.append_assoc]⟩
  | openErr q =>
    obtain rfl : q = p := Option.some.inj h
    exact ⟨"no write permission or error opening file ", ": " ++ w,
      by simp [errMsg, String.append_assoc]⟩
  | seekErr q =>
    obtain rfl : q = p := Option.some.inj h
    exact ⟨"error seeking file ", ": " ++ w, by simp [errMsg, String.append_assoc]⟩
  | randErr q =>
    obtain rfl : q = p := Option.some.inj h
    exact ⟨"error generating random data for ", ": " ++ w,
      by simp [errMsg, String.append_assoc]⟩
  | writeRandErr q =>
    obtain rfl : q = p := Option.some.inj h
    exact ⟨"error writing random data to ", ": " ++ w, by simp [errMsg, String.append_assoc]⟩
  | syncRandErr q =>
    obtain rfl : q = p := Option.some.inj h
    exact ⟨"error syncing file ", " after writing random data: " ++ w,
      by simp [errMsg, String.append_assoc]⟩
  | seekZeroErr q =>
    obtain rfl : q = p := Option.some.inj h
    exact ⟨"error seeking file ", " before zeroing: " ++ w,
      by simp [errMsg, String.append_assoc]⟩
  | writeZeroErr q =>
    obtain rfl : q = p := Option.some.inj h
    exact ⟨"error writing zeros to ", ": " ++ w, by simp [errMsg, String.append_assoc]⟩
  | syncZeroErr q =>
    obtain rfl : q = p := Option.some.inj h
    exact ⟨"error syncing file ", " after writing zeros: " ++ w,
      by simp [errMsg, String.append_assoc]⟩
  | closeErr q =>
    obtain rfl : q = p := Option.some.inj h
    exact ⟨"error closing file ", " before final operations: " ++ w,
      by simp [errMsg, String.append_assoc]⟩
  | truncateErr q =>
    obtain rfl : q = p := Option.some.inj h
    exact ⟨"error truncating file ", ": " ++ w, by simp [errMsg, String.append_assoc]⟩
  | nameRandErr => exact absurd h (by simp [errPath])
  | renameErr s d =>
    obtain rfl : s = p := Option.some.inj h
    exact ⟨"error renaming file from ", " to " ++ d ++ ": " ++ w,
      by simp [errMsg, String.append_assoc]⟩

theorem touchesOnly_id (p : String) : TouchesOnly p id :=
  fun _ _ _ => rfl

theorem keepsSome_id (p : String) : KeepsSome p id :=
  fun _ h => h

theorem touchesOnly_writeAct (p : String) (e : ℕ) : TouchesOnly p (writeAct p e) := by
  intro fs q hq
  simp [writeAct, fsUpdate, hq]

theorem keepsSome_writeAct (p : String) (e : ℕ) : KeepsSome p (writeAct p e) := by
  intro fs _
  simp [writeAct, fsUpdate]

theorem touchesOnly_truncAct (p : String) : TouchesOnly p (truncAct p) := by
  intro fs q hq
  simp [truncAct, fsUpdate, hq]

theorem keepsSome_truncAct (p : String) : KeepsSome p (truncAct p) := by
  intro fs _
  simp [truncAct, fsUpdate]

theorem shredStepsPre_touches (path : String) (L N : ℕ) :
    ∀ s ∈ shredStepsPre path L N, TouchesOnly path s.2 ∧ KeepsSome path s.2 := by
  intro s hs
  unfold shredStepsPre randPassSteps zeroPassSteps at hs
  simp only [List.mem_append, List.mem_cons, List.mem_flatMap, List.mem_range,
    List.mem_singleton, List.not_mem_nil, or_false] at hs
  rcases hs with (((rfl | rfl) | ⟨i, hi, (rfl | ⟨j, hj, (rfl | rfl | rfl)⟩)⟩) |
    (rfl | ⟨j, hj, (rfl | rfl)⟩)) | (rfl | rfl | rfl) <;>
    first
      | exact ⟨touchesOnly_id path, keepsSome_id path⟩
      | exact ⟨touchesOnly_writeAct path _, keepsSome_writeAct path _⟩
      | exact ⟨touchesOnly_truncAct path, keepsSome_truncAct path⟩

theorem shredSteps_errPath (path np : String) (L N : ℕ) :
    ∀ s ∈ shredSteps path np L N, s.1 = GoErr.nameRandErr ∨ errPath s.1 = some path := by
  intro s hs
  unfold shredSteps shredStepsPre randPassSteps zeroPassSteps at hs
  simp only [List.mem_append, List.mem_cons, List.mem_flatMap, List.mem_range,
    List.mem_singleton, List.not_mem_nil, or_false] at hs
  rcases hs with ((((rfl | rfl) | ⟨i, hi, (rfl | ⟨j, hj, (rfl | rfl | rfl)⟩)⟩) |
    (rfl | ⟨j, hj, (rfl | rfl)⟩)) | (rfl | rfl | rfl)) | rfl <;>
    simp [errPath]

theorem foldl_touchesOnly {p : String} :
    ∀ (steps : List Step), (∀ s ∈ steps, TouchesOnly p s.2) →
    ∀ (fs : FS) (q : String), q ≠ p →
    (steps.foldl (fun a s => s.2 a) fs) q = fs q := by
  intro steps
  induction steps with
  | nil => intro _ fs q _; rfl
  | cons s rest ih =>
    intro h fs q hq
    rw [List.foldl_cons,
      ih (fun s2 hs2 => h s2 (List.mem_cons_of_mem _ hs2)) (s.2 fs) q hq]
    exact h s (List.mem_cons_self s rest) fs q hq

theorem foldl_shredStepsPre_path (path : String) (L N : ℕ) (fs : FS) :
    ((shredStepsPre path L N).foldl (fun a s => s.2 a) fs) path = some 0 := by
  unfold shredStepsPre
  rw [List.foldl_append]
  simp [List.foldl_cons, List.foldl_nil, truncAct, fsUpdate]

theorem runSteps_ok (steps : List Step) : ∀ (k : ℕ) (fs : FS),
    runSteps (fun _ => false) k steps fs =
      (Except.ok (), steps.foldl (fun a s => s.2 a) fs) := by
  induction steps with
  | nil => intro k fs; rfl
  | cons s rest ih =>
    intro k fs
    rw [runSteps, if_neg (by simp), List.foldl_cons]
    exact ih (k + 1) (s.2 fs)

theorem runSteps_fail (oracle : ℕ → Bool) :
    ∀ (steps : List Step) (base k : ℕ) (fs : FS) (hk : k < steps.length),
    (∀ i, i < k → oracle (base + i) = false) → oracle (base + k) = true →
    runSteps oracle base steps fs =
      (Except.error (steps.get ⟨k, hk⟩).1,
        (steps.take k).foldl (fun a s => s.2 a) fs) := by
  intro steps
  induction steps with
  | nil =>
    intro base k fs hk h1 h2
    exact absurd hk (by simp)
  | cons s rest ih =>
    intro base k fs hk h1 h2
    match k with
    | 0 =>
      rw [runSteps, if_pos (by simpa using h2)]
      rfl
    | k + 1 =>
      rw [runSteps, if_neg (by simpa using h1 0 (by omega))]
      rw [ih (base + 1) k (s.2 fs) (by simp only [List.length_cons] at hk; omega)
        (fun i hi => by
          rw [show base + 1 + i = base + (i + 1) from by ring]
          exact h1 (i + 1) (by omega))
        (by
          rw [show base + 1 + k = base + (k + 1) from by ring]
          exact h2)]
      rfl

theorem numChunksGo_one : numChunksGo 1 = 1 := by
  rw [numChunksGo_eq_spec (by norm_num)]
  norm_num [numChunksSpec, chunkSizeGo]

theorem sum_map_range_const {n c : ℕ} {f : ℕ → ℕ} (h : ∀ j, j < n → f j = c) :
    ((List.range n).map f).sum = n * c := by
  induction n with
  | zero => simp
  | succ n ih =>
    rw [List.range_succ n, List.map_append, List.sum_append,
      ih (fun j hj => h j (by omega))]
    simp [h n (by omega)]
    ring

theorem bufferSize_sum {L : ℕ} (hpos : 0 < L) (hL : L ≤ 2 ^ 53) :
    ((List.range (numChunksGo L)).map (fun j => bufferSize L (numChunksGo L) j)).sum = L := by
  have hn1 : 1 ≤ numChunksGo L := numChunksGo_pos L
  obtain ⟨m, hm⟩ : ∃ m, numChunksGo L = m + 1 := ⟨numChunksGo L - 1, by omega⟩
  have hspec : m + 1 = (L + 65535) / 65536 := by
    have h2 := numChunksGo_eq_spec hL
    rw [hm] at h2
    unfold numChunksSpec chunkSizeGo at h2
    have hge : 1 ≤ (L + 64 * 1024 - 1) / (64 * 1024) := by omega
    omega
  rw [hm, List.range_succ m, List.map_append, List.sum_append,
    sum_map_range_const (fun j hj => bufferSize_of_ne_last (by omega))]
  simp only [List.map_cons, List.map_nil, List.sum_cons, List.sum_nil]
  by_cases hmod : L % 65536 = 0
  · rw [show bufferSize L (m + 1) m = chunkSizeGo from by
      simp [bufferSize, chunkSizeGo, hmod]]
    unfold chunkSizeGo
    omega
  · rw [show bufferSize L (m + 1) m = L % 65536 from by
      simp [bufferSize, chunkSizeGo, hmod]]
    unfold chunkSizeGo
    omega

/-- Claim C2 (amended): for file lengths in the float64-exact range
`L ≤ 2^53`, the code's chunk count equals the specification's
`max(1, ceil(L / C))`; every window length follows the claimed formula
(length `C`, except `L mod C` for the last window when `L mod C ≠ 0`, with a
zero length corrected to `C`); and no zero-length write is ever attempted.
For larger `L` the float64 conversion can change the ceiling, so the claim's
universal quantification over all `L` fails (see the counterexample). -/
theorem chunkPlanner_matches_spec {L : ℕ} (hL : L ≤ 2 ^ 53) :
    numChunksGo L = numChunksSpec L ∧
    (∀ j, bufferSize L (numChunksGo L) j = windowLenSpec L (numChunksGo L) j) ∧
    (∀ j, 0 < bufferSize L (numChunksGo L) j) :=
  ⟨numChunksGo_eq_spec hL, fun j => bufferSize_eq_windowLenSpec L (numChunksGo L) j,
    fun j => bufferSize_pos L (numChunksGo L) j⟩

theorem chunkPlanner_matches_spec_witness :
    (150000 : ℕ) ≤ 2 ^ 53 ∧
    (numChunksGo 150000 = numChunksSpec 150000 ∧
      (∀ j, bufferSize 150000 (numChunksGo 150000) j =
        windowLenSpec 150000 (numChunksGo 150000) j) ∧
      (∀ j, 0 < bufferSize 150000 (numChunksGo 150000) j)) ∧
    numChunksSpec 150000 = 3 :=
  ⟨by norm_num, chunkPlanner_matches_spec (by norm_num),
    by norm_num [numChunksSpec, chunkSizeGo]⟩

/-- Claim C2 as stated is false at `L = 2^53 + 1`: `float64(2^53 + 1)` rounds
down to `2^53` (tie to even), so the code plans `2^37` chunks while
`max(1, ceil(L / C)) = 2^37 + 1`. -/
theorem chunkPlanner_float_ceil_mismatch :
    numChunksGo 9007199254740993 = 137438953472 ∧
    numChunksSpec 9007199254740993 = 137438953473 ∧
    numChunksGo 9007199254740993 ≠ numChunksSpec 9007199254740993 := by
  refine ⟨numChunksGo_big, numChunksSpec_big, ?_⟩
  rw [numChunksGo_big, numChunksSpec_big]
  omega

/-- Claim C3 (amended): with a non-nil callback, a file length in the
float64-exact range `L ≤ 2^53`, and a step total within `int64` range, the
overwrite loops invoke the callback exactly `N*numChunks + numChunks` times
with `numChunks = max(1, ceil(L / C))`, and the `k`-th invocation reports the
binary64 evaluation `int(float64(k) / float64(total) * 100)` — which can fall
one below the exact `floor(k * 100 / total)` (see the counterexample). -/
theorem progress_report_count_and_values {L N : ℕ} (hL : L ≤ 2 ^ 53)
    (htot : N * numChunksGo L + numChunksGo L < 2 ^ 63) :
    (progValues (overwriteEvents L N)).length =
      N * numChunksSpec L + numChunksSpec L ∧
    ∀ k, k < N * numChunksSpec L + numChunksSpec L →
      (progValues (overwriteEvents L N))[k]? =
        some (pct (k + 1) (N * numChunksSpec L + numChunksSpec L)) := by
  have hnum := numChunksGo_eq_spec hL
  constructor
  · rw [progValues_overwriteEvents, List.length_map, List.length_range, hnum]
  · intro k hk
    rw [progValues_overwriteEvents, List.getElem?_map,
      List.getElem?_range (by rw [hnum]; exact hk)]
    rw [hnum]
    rfl

theorem progress_report_count_and_values_witness :
    (1 : ℕ) ≤ 2 ^ 53 ∧ 0 * numChunksGo 1 + numChunksGo 1 < 2 ^ 63 ∧
    (progValues (overwriteEvents 1 0)).length = 0 * numChunksSpec 1 + numChunksSpec 1 :=
  ⟨by norm_num, by rw [numChunksGo_one]; norm_num,
    (progress_report_count_and_values (by norm_num)
      (by rw [numChunksGo_one]; norm_num)).1⟩

/-- Claim C3's value formula is false on the code: with 49 passes on a 1-byte
file (`total = 50`), the 29th callback reports 57 — the binary64 evaluation
of `29/50*100` truncates to 57 — while the claimed `floor(29/50*100) = 58`. -/
theorem progress_floor_formula_mismatch :
    (progValues (overwriteEvents 1 49))[28]? = some 57 ∧
    ⌊(29 : ℚ) / 50 * 100⌋ = 58 ∧ (57 : ℤ) ≠ 58 := by
  refine ⟨?_, by norm_num, by norm_num⟩
  rw [progValues_overwriteEvents, numChunksGo_one]
  norm_num
  exact pct_29_50

/-- Claim C4: over a successful run with a non-nil callback (original length
and step total within `int64` range), the sequence of reported percentages is
non-decreasing, every value lies in `[0, 100]`, and the final report is
exactly 100. -/
theorem progress_monotone_bounded (L N : ℕ) (orig dst : String)
    (hL : L < 2 ^ 63) (htot : N * numChunksGo L + numChunksGo L < 2 ^ 63) :
    List.Chain' (fun a b => a ≤ b) (progValues (runTrace L N orig dst)) ∧
    (∀ v ∈ progValues (runTrace L N orig dst), 0 ≤ v ∧ v ≤ 100) ∧
    (progValues (runTrace L N orig dst)).getLast? = some 100 := by
  have htpos : 0 < N * numChunksGo L + numChunksGo L := by
    have := numChunksGo_pos L
    omega
  rw [progValues_runTrace, progValues_overwriteEvents]
  refine ⟨?_, ?_, ?_⟩
  · rw [List.chain'_append]
    refine ⟨chain_pct_map _, List.chain'_singleton 100, ?_⟩
    intro x hx y hy
    rw [Option.mem_def, map_range_getLast _ htpos, Option.some.injEq] at hx
    rw [Option.mem_def, show ([(100:ℤ)]).head? = some 100 from rfl,
      Option.some.injEq] at hy
    subst hx
    subst hy
    rw [show N * numChunksGo L + numChunksGo L - 1 + 1 =
      N * numChunksGo L + numChunksGo L from by omega, pct_self htpos]
  · intro v hv
    rw [List.mem_append] at hv
    rcases hv with hv | hv
    · rw [List.mem_map] at hv
      obtain ⟨k, hk, rfl⟩ := hv
      rw [List.mem_range] at hk
      exact ⟨pct_nonneg _ _, pct_le_100 (by omega) htpos⟩
    · simp only [List.mem_singleton] at hv
      subst hv
      norm_num
  · rw [List.getLast?_append]
    rfl

theorem progress_monotone_bounded_witness :
    (1 : ℕ) < 2 ^ 63 ∧ 0 * numChunksGo 1 + numChunksGo 1 < 2 ^ 63 ∧
    (progValues (runTrace 1 0 ("a") ("b"))).getLast? = some 100 :=
  ⟨by norm_num, by rw [numChunksGo_one]; norm_num,
    (progress_monotone_bounded 1 0 ("a") ("b") (by norm_num)
      (by rw [numChunksGo_one]; norm_num)).2.2⟩

/-- Claim C5: with `passes = 0` no random write occurs, yet the zero-fill
pass still writes a zero buffer of each window's length over every chunk
window, and truncation, rename and deletion all still proceed; moreover the
zero pass writes exactly the same windows for every pass count `N ≥ 0`. -/
theorem zero_pass_unconditional (L N : ℕ) (orig dst : String) :
    (shredTrace L 0 orig dst).filter isRandomWrite = [] ∧
    zeroWritesOf (shredTrace L N orig dst) =
      (List.range (numChunksGo L)).map
        (fun j => (j * chunkSizeGo, bufferSize L (numChunksGo L) j, Payload.zero)) ∧
    Ev.truncateFile ∈ shredTrace L 0 orig dst ∧
    Ev.renameFile orig dst ∈ shredTrace L 0 orig dst ∧
    Ev.removeFile dst ∈ shredTrace L 0 orig dst := by
  refine ⟨?_, ?_, ?_, ?_, ?_⟩
  · rw [List.filter_eq_nil_iff]
    intro e he
    simp only [shredTrace, runTrace, overwriteEvents, finalizeEvents, passEvents,
      chunkBlock, List.range_zero, List.flatMap_nil, List.nil_append, List.mem_append,
      List.mem_cons, List.mem_flatMap, List.mem_range, List.not_mem_nil, or_false] at he
    rcases he with ((rfl | ⟨j, hj, (rfl | rfl | rfl)⟩) |
      (rfl | rfl | rfl | rfl)) | rfl <;> simp [isRandomWrite]
  · unfold zeroWritesOf shredTrace runTrace overwriteEvents
    rw [writesOf_append, writesOf_append, writesOf_append, writesOf_flatMap]
    rw [show writesOf (finalizeEvents orig dst) = [] from rfl,
      show writesOf [Ev.removeFile dst] = [] from rfl,
      List.append_nil, List.append_nil]
    rw [List.filter_append]
    simp only [writesOf_passEvents]
    rw [show ((List.range N).flatMap fun i =>
        (List.range (numChunksGo L)).map
          (fun j => (j * chunkSizeGo, bufferSize L (numChunksGo L) j, Payload.random))).filter
          (fun w => decide (w.2.2 = Payload.zero)) = [] from by
      rw [List.filter_eq_nil_iff]
      intro w hw
      simp only [List.mem_flatMap, List.mem_range, List.mem_map] at hw
      obtain ⟨i, hi, j, hj, rfl⟩ := hw
      simp]
    rw [List.nil_append, List.filter_map]
    rw [show ((List.range (numChunksGo L)).filter
        ((fun w => decide (w.2.2 = Payload.zero)) ∘
          (fun j => (j * chunkSizeGo, bufferSize L (numChunksGo L) j, Payload.zero)))) =
      List.range (numChunksGo L) from by
      apply List.filter_eq_self.mpr
      intro a ha
      simp [Function.comp]]
  · simp [shredTrace, runTrace, finalizeEvents]
  · simp [shredTrace, runTrace, finalizeEvents]
  · simp [shredTrace, runTrace, finalizeEvents]

/-- Claim C8 (amended): every pass writes its chunk windows at strictly
increasing offsets `0, C, 2C, ...`; for `0 < L ≤ 2^53` (the float64-exact
range) the window lengths of one pass sum to exactly `L`; and for `L = 0`
exactly one window of length `C` is written.  Beyond `2^53` the float64 chunk
count makes the sum fall short of `L` (see the counterexample). -/
theorem pass_windows_ordered_and_cover (L total base : ℕ) (p : Payload) :
    (writesOf (passEvents L (numChunksGo L) total base p)).map (fun w => w.1) =
      (List.range (numChunksGo L)).map (fun j => j * chunkSizeGo) ∧
    List.Chain' (fun a b => a < b)
      ((writesOf (passEvents L (numChunksGo L) total base p)).map (fun w => w.1)) ∧
    ((writesOf (passEvents L (numChunksGo L) total base p)).map (fun w => w.1)).head? =
      some 0 ∧
    (0 < L → L ≤ 2 ^ 53 →
      ((writesOf (passEvents L (numChunksGo L) total base p)).map (fun w => w.2.1)).sum = L) ∧
    (L = 0 → writesOf (passEvents L (numChunksGo L) total base p) = [(0, chunkSizeGo, p)]) := by
  have hoff : (writesOf (passEvents L (numChunksGo L) total base p)).map (fun w => w.1) =
      (List.range (numChunksGo L)).map (fun j => j * chunkSizeGo) := by
    rw [writesOf_passEvents, List.map_map]
    rfl
  refine ⟨hoff, ?_, ?_, ?_, ?_⟩
  · rw [hoff, List.chain'_map]
    have hn1 : 1 ≤ numChunksGo L := numChunksGo_pos L
    obtain ⟨m, hm⟩ : ∃ m, numChunksGo L = m + 1 := ⟨numChunksGo L - 1, by omega⟩
    rw [hm]
    exact (List.chain'_range_succ (fun a b => a * chunkSizeGo < b * chunkSizeGo) m).mpr
      (fun i hi => by
        simp only [chunkSizeGo]
        omega)
  · rw [hoff]
    have hn1 : 1 ≤ numChunksGo L := numChunksGo_pos L
    obtain ⟨m, hm⟩ : ∃ m, numChunksGo L = m + 1 := ⟨numChunksGo L - 1, by omega⟩
    rw [hm, List.range_succ_eq_map]
    rfl
  · intro hpos hL
    rw [writesOf_passEvents, List.map_map]
    exact bufferSize_sum hpos hL
  · intro h0
    subst h0
    rw [writesOf_passEvents]
    rfl

theorem pass_windows_ordered_and_cover_witness :
    (0 : ℕ) < 150000 ∧ (150000 : ℕ) ≤ 2 ^ 53 ∧
    ((writesOf (passEvents 150000 (numChunksGo 150000) 12 0 Payload.random)).map
      (fun w => w.2.1)).sum = 150000 :=
  ⟨by norm_num, by norm_num,
    (pass_windows_ordered_and_cover 150000 12 0 Payload.random).2.2.2.1
      (by norm_num) (by norm_num)⟩

/-- Claim C8's length-preservation clause is false on the code at
`L = 2^53 + 1`: the zero pass writes windows totalling `2^53 - 65535` bytes,
not `L`, because the float64 chunk count dropped one window. -/
theorem pass_window_sum_mismatch_big :
    ((writesOf (passEvents 9007199254740993 (numChunksGo 9007199254740993) 1 0
      Payload.zero)).map (fun w => w.2.1)).sum = 9007199254675457 ∧
    (9007199254675457 : ℕ) ≠ 9007199254740993 := by
  constructor
  · rw [writesOf_passEvents, List.map_map]
    show (List.map (fun j => bufferSize 9007199254740993 (numChunksGo 9007199254740993) j)
      (List.range (numChunksGo 9007199254740993))).sum = 9007199254675457
    rw [numChunksGo_big, show (137438953472 : ℕ) = 137438953471 + 1 from rfl,
      List.range_succ 137438953471, List.map_append, List.sum_append,
      sum_map_range_const (fun j hj => bufferSize_of_ne_last (by omega))]
    simp only [List.map_cons, List.map_nil, List.sum_cons, List.sum_nil]
    rw [show bufferSize 9007199254740993 (137438953471 + 1) 137438953471 =
        9007199254740993 % 65536 from by
      simp [bufferSize, chunkSizeGo]]
    norm_num [chunkSizeGo]
  · omega

/-- Claim C9: in both the random passes and the zero pass, every progress
report is immediately preceded by the chunk's durable flush (`Sync`), itself
immediately preceded by the chunk's write: no chunk is counted as progress
before its write is confirmed flushed. -/
theorem sync_before_progress (L N : ℕ) :
    ∀ i v, (overwriteEvents L N)[i]? = some (Ev.prog v) →
      2 ≤ i ∧ (overwriteEvents L N)[i - 1]? = some Ev.sync ∧
      ∃ o l p, (overwriteEvents L N)[i - 2]? = some (Ev.write o l p) :=
  fbp_overwriteEvents L N

theorem sync_before_progress_witness :
    (overwriteEvents 1 0)[3]? = some (Ev.prog (pct 1 1)) ∧
    (2 ≤ 3 ∧ (overwriteEvents 1 0)[2]? = some Ev.sync ∧
      ∃ o l p, (overwriteEvents 1 0)[1]? = some (Ev.write o l p)) := by
  have h3 : (overwriteEvents 1 0)[3]? = some (Ev.prog (pct 1 1)) := by
    simp [overwriteEvents, passEvents, chunkBlock, numChunksGo_one,
      show List.range 1 = [0] from rfl]
  exact ⟨h3, sync_before_progress 1 0 3 (pct 1 1) h3⟩

/-- Claim C10: the returned triple is consistent — a non-nil error comes with
`success = false` and an empty final path; the error is nil exactly when
`success = true`; and on success the final path returned is the obfuscated
new path. -/
theorem result_triple_consistency (oracle : ℕ → Bool) (fs : FS) (path : String)
    (N ts : ℕ) (rb : List ℕ) :
    ((SecureShredFileM oracle fs path N ts rb).1.2.2 ≠ none →
      (SecureShredFileM oracle fs path N ts rb).1.1 = false ∧
      (SecureShredFileM oracle fs path N ts rb).1.2.1 = "") ∧
    ((SecureShredFileM oracle fs path N ts rb).1.2.2 = none ↔
      (SecureShredFileM oracle fs path N ts rb).1.1 = true) ∧
    ((SecureShredFileM oracle fs path N ts rb).1.2.2 = none →
      (SecureShredFileM oracle fs path N ts rb).1.2.1 = newPathGo path ts rb) := by
  cases hfs : fs path with
  | none =>
    have hM : SecureShredFileM oracle fs path N ts rb =
        ((false, "", some (GoErr.notExist path)), fs) := by
      simp only [SecureShredFileM, hfs]
    rw [hM]
    simp
  | some L =>
    rcases hrun : runSteps oracle 0 (shredSteps path (newPathGo path ts rb) L N) fs
      with ⟨res, fs2⟩
    cases res with
    | ok u =>
      have hM : SecureShredFileM oracle fs path N ts rb =
          ((true, newPathGo path ts rb, none), fs2) := by
        simp only [SecureShredFileM, hfs, hrun]
      rw [hM]
      simp
    | error e =>
      have hM : SecureShredFileM oracle fs path N ts rb =
          ((false, "", some e), fs2) := by
        simp only [SecureShredFileM, hfs, hrun]
      rw [hM]
      simp

theorem result_triple_consistency_witness :
    ((SecureShredFileM (fun _ => false) (fun _ => some 1) ("/d/f") 0 5 []).1.2.2 ≠ none →
      (SecureShredFileM (fun _ => false) (fun _ => some 1) ("/d/f") 0 5 []).1.1 = false ∧
      (SecureShredFileM (fun _ => false) (fun _ => some 1) ("/d/f") 0 5 []).1.2.1 = "") ∧
    ((SecureShredFileM (fun _ => false) (fun _ => some 1) ("/d/f") 0 5 []).1.2.2 = none ↔
      (SecureShredFileM (fun _ => false) (fun _ => some 1) ("/d/f") 0 5 []).1.1 = true) ∧
    ((SecureShredFileM (fun _ => false) (fun _ => some 1) ("/d/f") 0 5 []).1.2.2 = none →
      (SecureShredFileM (fun _ => false) (fun _ => some 1) ("/d/f") 0 5 []).1.2.1 =
        newPathGo ("/d/f") 5 []) :=
  result_triple_consistency (fun _ => false) (fun _ => some 1) ("/d/f") 0 5 []

/-- Claim C1: after a fully successful `shred` call — engine success and the
default-policy delete of the renamed file succeeding — the file exists
neither at the original path nor at the returned final path. -/
theorem shred_success_final_state (fs : FS) (path : String) (N ts L : ℕ)
    (rb : List ℕ) (hfs : fs path = some L) :
    (shredM (fun _ => false) fs path N ts rb false).1.1 = true ∧
    (shredM (fun _ => false) fs path N ts rb false).2 path = none ∧
    (shredM (fun _ => false) fs path N ts rb false).2
      ((shredM (fun _ => false) fs path N ts rb false).1.2.1) = none := by
  have hrun := runSteps_ok (shredSteps path (newPathGo path ts rb) L N) 0 fs
  have hM : SecureShredFileM (fun _ => false) fs path N ts rb =
      ((true, newPathGo path ts rb, none),
        (shredSteps path (newPathGo path ts rb) L N).foldl (fun a s => s.2 a) fs) := by
    simp only [SecureShredFileM, hfs, hrun]
  have hshred : shredM (fun _ => false) fs path N ts rb false =
      ((true, newPathGo path ts rb, none),
        fsUpdate ((shredSteps path (newPathGo path ts rb) L N).foldl (fun a s => s.2 a) fs)
          (newPathGo path ts rb) none) := by
    simp [shredM, hM]
  rw [hshred]
  refine ⟨rfl, ?_, ?_⟩
  · by_cases hpn : path = newPathGo path ts rb
    · rw [← hpn]
      simp [fsUpdate]
    · simp only [fsUpdate, if_neg hpn]
      unfold shredSteps
      rw [List.foldl_append]
      simp only [List.foldl_cons, List.foldl_nil]
      simp [renameAct, hpn]
  · simp [fsUpdate]

theorem shred_success_final_state_witness :
    (fun q => if q = "/d/f" then some 1 else none : FS) "/d/f" = some 1 ∧
    ((shredM (fun _ => false) (fun q => if q = "/d/f" then some 1 else none)
        ("/d/f") 0 5 [] false).1.1 = true ∧
      (shredM (fun _ => false) (fun q => if q = "/d/f" then some 1 else none)
        ("/d/f") 0 5 [] false).2 ("/d/f") = none ∧
      (shredM (fun _ => false) (fun q => if q = "/d/f" then some 1 else none)
        ("/d/f") 0 5 [] false).2
        ((shredM (fun _ => false) (fun q => if q = "/d/f" then some 1 else none)
          ("/d/f") 0 5 [] false).1.2.1) = none) :=
  ⟨by simp, shred_success_final_state _ ("/d/f") 0 5 1 [] (by simp)⟩

/-- Claim C6 (amended): every failure kind except delete failure is fatal.
If the file does not exist, `SecureShredFile` returns at once — for any fault
oracle — with `success = false`, an empty final path, and the not-found error
naming the path, leaving the file system untouched.  Otherwise, whichever
fallible operation fails first — stat, open, seek, chunk randomness, write,
flush, close, truncate, name randomness, or rename — the engine aborts at
once with `success = false`, an empty final path, and exactly that
operation's error; the file system is left exactly as the successful prefix
produced it, with no cleanup.  Every error's message names the failing path
except the name-randomness failure, whose message names no path (see the
counterexample).  In particular a failed rename leaves the file truncated to
zero length at its original path under its original name, and the obfuscated
target untouched. -/
theorem failures_abort_immediately (oracle : ℕ → Bool) (fs : FS) (path : String)
    (N ts L k : ℕ) (rb : List ℕ) (w : String) :
    (fs path = none →
      SecureShredFileM oracle fs path N ts rb =
        ((false, "", some (GoErr.notExist path)), fs) ∧
      Mentions (errMsg (GoErr.notExist path) w) path) ∧
    (fs path = some L →
      ∀ hk : k < (shredSteps path (newPathGo path ts rb) L N).length,
      (SecureShredFileM (fun i => decide (i = k)) fs path N ts rb).1.1 = false ∧
      (SecureShredFileM (fun i => decide (i = k)) fs path N ts rb).1.2.1 = "" ∧
      (SecureShredFileM (fun i => decide (i = k)) fs path N ts rb).1.2.2 =
        some ((shredSteps path (newPathGo path ts rb) L N).get ⟨k, hk⟩).1 ∧
      (SecureShredFileM (fun i => decide (i = k)) fs path N ts rb).2 =
        ((shredSteps path (newPathGo path ts rb) L N).take k).foldl (fun a s => s.2 a) fs ∧
      (((shredSteps path (newPathGo path ts rb) L N).get ⟨k, hk⟩).1 ≠ GoErr.nameRandErr →
        Mentions (errMsg ((shredSteps path (newPathGo path ts rb) L N).get ⟨k, hk⟩).1 w) path) ∧
      (k = (shredSteps path (newPathGo path ts rb) L N).length - 1 →
        (SecureShredFileM (fun i => decide (i = k)) fs path N ts rb).2 path = some 0 ∧
        (path ≠ newPathGo path ts rb →
          (SecureShredFileM (fun i => decide (i = k)) fs path N ts rb).2
            (newPathGo path ts rb) = fs (newPathGo path ts rb)))) := by
  constructor
  · intro hnone
    constructor
    · simp only [SecureShredFileM, hnone]
    · exact mentions_of_errPath (show errPath (GoErr.notExist path) = some path from rfl) w
  · intro hfs hk
    have hrun := runSteps_fail (fun i => decide (i = k))
      (shredSteps path (newPathGo path ts rb) L N) 0 k fs hk
      (fun i hi => by simp only [Nat.zero_add, decide_eq_false_iff_not]; omega)
      (by simp)
    have hM : SecureShredFileM (fun i => decide (i = k)) fs path N ts rb =
        ((false, "", some ((shredSteps path (newPathGo path ts rb) L N).get ⟨k, hk⟩).1),
          ((shredSteps path (newPathGo path ts rb) L N).take k).foldl (fun a s => s.2 a) fs) := by
      simp only [SecureShredFileM, hfs, hrun]
    rw [hM]
    refine ⟨rfl, rfl, rfl, rfl, ?_, ?_⟩
    · intro hne
      have hmem := List.get_mem (shredSteps path (newPathGo path ts rb) L N) k hk
      rcases shredSteps_errPath path (newPathGo path ts rb) L N _ hmem with h1 | h1
      · exact absurd h1 hne
      · exact mentions_of_errPath h1 w
    · intro hlast
      have hlen : (shredSteps path (newPathGo path ts rb) L N).length =
          (shredStepsPre path L N).length + 1 := by
        unfold shredSteps
        rw [List.length_append]
        rfl
      have htake : (shredSteps path (newPathGo path ts rb) L N).take k =
          shredStepsPre path L N := by
        rw [hlast, hlen, Nat.add_sub_cancel]
        unfold shredSteps
        exact List.take_left _ _
      rw [htake]
      constructor
      · exact foldl_shredStepsPre_path path L N fs
      · intro hne
        exact foldl_touchesOnly _ (fun s hs => (shredStepsPre_touches path L N s hs).1) fs _
          (fun h => hne h.symm)

theorem failures_abort_immediately_witness :
    (fun _ => none : FS) "/g" = none ∧
    SecureShredFileM (fun _ => false) (fun _ => none) ("/g") 0 5 [] =
      ((false, "", some (GoErr.notExist ("/g"))), (fun _ => none : FS)) ∧
    (fun q => if q = "/d/f" then some 1 else none : FS) "/d/f" = some 1 ∧
    0 < (shredSteps ("/d/f") (newPathGo ("/d/f") 5 []) 1 0).length ∧
    (SecureShredFileM (fun i => decide (i = 0))
      (fun q => if q = "/d/f" then some 1 else none) ("/d/f") 0 5 []).1.1 = false := by
  have hnone : (fun _ => none : FS) "/g" = none := rfl
  have hfs : (fun q => if q = "/d/f" then some 1 else none : FS) "/d/f" = some 1 := by simp
  have hk : 0 < (shredSteps ("/d/f") (newPathGo ("/d/f") 5 []) 1 0).length := by
    unfold shredSteps
    rw [List.length_append, List.length_singleton]
    omega
  refine ⟨hnone, ?_, hfs, hk, ?_⟩
  · exact ((failures_abort_immediately (fun _ => false) (fun _ => none)
      ("/g") 0 5 0 0 [] ("x")).1 hnone).1
  · exact (((failures_abort_immediately (fun i => decide (i = 0))
      (fun q => if q = "/d/f" then some 1 else none)
      ("/d/f") 0 5 1 0 [] ("x")).2 hfs) hk).1

theorem secureShredFileM_error {oracle : ℕ → Bool} {fs : FS} {path : String} {N ts : ℕ}
    {rb : List ℕ} {L : ℕ} {e : GoErr} {fs2 : FS}
    (hfs : fs path = some L)
    (hrun : runSteps oracle 0 (shredSteps path (newPathGo path ts rb) L N) fs =
      (Except.error e, fs2)) :
    SecureShredFileM oracle fs path N ts rb = ((false, "", some e), fs2) := by
  simp only [SecureShredFileM, hfs, hrun]

/-- Claim C6 as stated is false in one point: when the 32-byte name-randomness
read fails (the operation at index 7 for a 1-byte file with no random
passes), the engine returns the name-randomness error, whose message —
"error generating random bytes for new file name: ..." — does not mention
the failing path at all, while every other failure's message does. -/
theorem nameRand_error_names_no_path :
    (SecureShredFileM (fun i => decide (i = 7))
      (fun _ => some 1) ("/d/f") 0 5 []).1.2.2 =
      some GoErr.nameRandErr ∧
    ¬ Mentions (errMsg GoErr.nameRandErr ("x")) "/d/f" := by
  have hsteps : shredSteps ("/d/f") (newPathGo ("/d/f") 5 []) 1 0 =
      [(GoErr.statErr ("/d/f"), id), (GoErr.openErr ("/d/f"), id),
       (GoErr.seekZeroErr ("/d/f"), id),
       (GoErr.writeZeroErr ("/d/f"), writeAct ("/d/f") (bufferSize 1 1 0)),
       (GoErr.syncZeroErr ("/d/f"), id),
       (GoErr.closeErr ("/d/f"), id),
       (GoErr.truncateErr ("/d/f"), truncAct ("/d/f")),
       (GoErr.nameRandErr, id),
       (GoErr.renameErr ("/d/f") (newPathGo ("/d/f") 5 []),
         renameAct ("/d/f") (newPathGo ("/d/f") 5 []))] := by
    simp [shredSteps, shredStepsPre, zeroPassSteps, randPassSteps, numChunksGo_one,
      show List.range 1 = [0] from rfl, show List.range 0 = [] from rfl]
  have hk : 7 < (shredSteps ("/d/f") (newPathGo ("/d/f") 5 []) 1 0).length := by
    rw [hsteps]
    simp
  have hfs : (fun _ => some 1 : FS) "/d/f" = some 1 := rfl
  have hrun := runSteps_fail (fun i => decide (i = 7))
    (shredSteps ("/d/f") (newPathGo ("/d/f") 5 []) 1 0) 0 7
    (fun _ => some 1) hk
    (fun i hi => by simp only [Nat.zero_add, decide_eq_false_iff_not]; omega)
    (by simp)
  have hget : (shredSteps ("/d/f") (newPathGo ("/d/f") 5 []) 1 0).get ⟨7, hk⟩ =
      (GoErr.nameRandErr, id) := by
    have h7 : (shredSteps ("/d/f") (newPathGo ("/d/f") 5 []) 1 0)[7]? =
        some (GoErr.nameRandErr, id) := by
      rw [hsteps]
      rfl
    rw [List.get_eq_getElem]
    exact (List.getElem?_eq_some.mp h7).2
  constructor
  · have hM := secureShredFileM_error hfs hrun
    rw [hM, hget]
  · rintro ⟨a, b, hab⟩
    have hdata := congrArg String.data hab
    rw [String.data_append, String.data_append] at hdata
    have hmem : ('/' : Char) ∈ (errMsg GoErr.nameRandErr ("x")).data := by
      rw [hdata]
      have hin : ('/' : Char) ∈ ("/d/f" : String).data := by decide
      simp only [List.mem_append]
      exact Or.inl (Or.inr hin)
    revert hmem
    decide

/-- Claim C7: the obfuscated replacement name is exactly the base64url
no-padding encoding of the decimal rendering of the Unix timestamp, an
underscore, then the base64url no-padding encoding of the 32 random bytes —
with the code's blockwise encoder provably equal to the specification's
bit-level description of base64url — and the rename target returned on
success sits in the same parent directory as the original file. -/
theorem obfuscated_name_format (fs : FS) (path : String) (N ts L : ℕ) (rb : List ℕ)
    (hrb : rb.length = 32) (hbytes : ∀ b ∈ rb, b < 256) (hfs : fs path = some L)
    (hdir : goDir path = "/" ∨
      (goDir path ≠ "." ∧ goDir path ≠ "" ∧ (goDir path).data.getLast? ≠ some '/')) :
    (SecureShredFileM (fun _ => false) fs path N ts rb).1.2.1 =
      goJoin (goDir path) (newFileNameGo ts rb) ∧
    newFileNameGo ts rb = specObfuscatedName ts rb ∧
    goDir ((SecureShredFileM (fun _ => false) fs path N ts rb).1.2.1) = goDir path := by
  have hM : (SecureShredFileM (fun _ => false) fs path N ts rb).1.2.1 =
      newPathGo path ts rb := by
    simp only [SecureShredFileM, hfs, runSteps_ok]
  refine ⟨by rw [hM]; rfl, ?_, ?_⟩
  · unfold newFileNameGo specObfuscatedName
    rw [goB64_eq_specB64 (decBytes ts) (decBytes_lt ts), goB64_eq_specB64 rb hbytes]
  · rw [hM]
    unfold newPathGo
    rcases hdir with h | ⟨h1, h2, h3⟩
    · rw [h]
      exact goDir_root_join (newFileNameGo_no_slash ts rb)
    · exact goDir_join h1 h2 h3 (newFileNameGo_no_slash ts rb)

theorem obfuscated_name_format_witness :
    (List.replicate 32 7).length = 32 ∧ (∀ b ∈ List.replicate 32 7, b < 256) ∧
    (fun q => if q = "/tmp/a.txt" then some 1 else none : FS) "/tmp/a.txt" = some 1 ∧
    (goDir ("/tmp/a.txt") = "/" ∨ (goDir ("/tmp/a.txt") ≠ "." ∧ goDir ("/tmp/a.txt") ≠ "" ∧
      (goDir ("/tmp/a.txt")).data.getLast? ≠ some '/')) ∧
    newFileNameGo 5 (List.replicate 32 7) = specObfuscatedName 5 (List.replicate 32 7) :=
  ⟨by simp, by decide, by simp,
    Or.inr ⟨by decide, by decide, by decide⟩,
    (obfuscated_name_format (fun q => if q = "/tmp/a.txt" then some 1 else none)
      ("/tmp/a.txt") 0 5 1 (List.replicate 32 7) (by simp) (by decide) (by simp)
      (Or.inr ⟨by decide, by decide, by decide⟩)).2.1⟩

end Shredder
